import Mathlib

/-!
A shallow embedding, in Lean 4, of the discrete-diffusion text module
(`diffusion.go`, package `paragon`): the mask-fraction schedule, the three
noising functions, the per-sample loss/error-term computation of the three
trainers, the aggregation step of the concurrent trainer, the per-position
samplers and full loops of the two masked generators, and the tokenizer.

Conventions of the embedding:
* Go `float64` values are modelled as exact rationals (`ℚ`); Go `int` token
  ids are modelled as `ℕ` (all ids produced by the tokenizer are
  non-negative).
* Calls to the global random source (`rand.Float64()`) are modelled by an
  explicit stream `rng : ℕ → ℚ` together with a counter threaded through the
  state; `rand.Shuffle` is modelled by quantifying over an arbitrary
  permutation of the shuffled list.
* `Network.ForwardTransformer` and `Softmax` live outside this file's source
  (they are external collaborators of the diffusion core); the code always
  consumes them through the composite `probs := Softmax(flatOutput[i*V:(i+1)*V])`,
  so the embedding abstracts exactly that composite as an oracle
  `probsOf : List ℕ → ℕ → List ℚ` (current sequence, position ↦ the
  post-softmax probability row of length `VocabSize`).
* Go operations that panic (out-of-range slice bounds, indexing an empty
  slice) are modelled by `Option`, `none` standing for the panic.
-/

/-- Clamping of a value into `[0,1]` exactly as the two sequential `if`
statements in `NewDiffusionModel` do (`if frac < 0 { frac = 0 }`,
`if frac > 1 { frac = 1 }`). -/
def clamp01 (x : ℚ) : ℚ :=
  if x < 0 then 0 else if x > 1 then 1 else x

/-- Go's `math.Round`: round to the nearest integer, halves away from zero. -/
def goRound (q : ℚ) : ℤ :=
  if 0 ≤ q then ⌊q + 1 / 2⌋ else ⌈q - 1 / 2⌉

/-- The mask-fraction entry computed for step `t` in `NewDiffusionModel`:
`start + (end-start)·t/(T-1)` clamped into `[0,1]`. -/
def maskFractionEntry (sFrac eFrac : ℚ) (T t : ℕ) : ℚ :=
  clamp01 (sFrac + (eFrac - sFrac) * (t : ℚ) / ((T : ℚ) - 1))

/-- The `MaskFraction` table filled once at model construction
(`NewDiffusionModel`): one entry per step `t ∈ [0, T-1]`. -/
def maskFractionTable (sFrac eFrac : ℚ) (T : ℕ) : List ℚ :=
  (List.range T).map (maskFractionEntry sFrac eFrac T)

theorem clamp01_mem (x : ℚ) : 0 ≤ clamp01 x ∧ clamp01 x ≤ 1 := by
  unfold clamp01
  split_ifs <;> constructor <;> linarith

theorem clamp01_mono {x y : ℚ} (h : x ≤ y) : clamp01 x ≤ clamp01 y := by
  unfold clamp01
  split_ifs <;> linarith

theorem maskFractionEntry_mem (sFrac eFrac : ℚ) (T t : ℕ) :
    0 ≤ maskFractionEntry sFrac eFrac T t ∧ maskFractionEntry sFrac eFrac T t ≤ 1 :=
  clamp01_mem _

theorem maskFractionEntry_mono {sFrac eFrac : ℚ} (hse : sFrac ≤ eFrac) {T : ℕ}
    (hT : 2 ≤ T) {t t' : ℕ} (htt : t ≤ t') :
    maskFractionEntry sFrac eFrac T t ≤ maskFractionEntry sFrac eFrac T t' := by
  apply clamp01_mono
  have hT1 : (0 : ℚ) < (T : ℚ) - 1 := by
    have h2 : (2 : ℚ) ≤ (T : ℚ) := by exact_mod_cast hT
    linarith
  have hse' : (0 : ℚ) ≤ eFrac - sFrac := by linarith
  have htt' : (t : ℚ) ≤ (t' : ℚ) := by exact_mod_cast htt
  have hnum : (eFrac - sFrac) * (t : ℚ) ≤ (eFrac - sFrac) * (t' : ℚ) :=
    mul_le_mul_of_nonneg_left htt' hse'
  have hdiv : (eFrac - sFrac) * (t : ℚ) / ((T : ℚ) - 1) ≤
      (eFrac - sFrac) * (t' : ℚ) / ((T : ℚ) - 1) := by gcongr
  linarith

theorem maskFractionTable_getD {sFrac eFrac : ℚ} {T t : ℕ} (ht : t < T) :
    (maskFractionTable sFrac eFrac T).getD t 0 = maskFractionEntry sFrac eFrac T t := by
  simp [maskFractionTable, List.getD_eq_getElem?_getD, List.getElem?_map,
    List.getElem?_range ht]

/-- C7: under the precondition `T ≥ 2`, every entry of the `MaskFraction`
table built by `NewDiffusionModel` equals
`clamp(start + (end-start)·t/(T-1), 0, 1)`, lies in `[0,1]`, and when
`end ≥ start` the table is monotonically non-decreasing in `t`. -/
theorem C7_maskFraction_table (sFrac eFrac : ℚ) (T : ℕ) (hT : 2 ≤ T) :
    (maskFractionTable sFrac eFrac T).length = T ∧
    (∀ t, t < T →
      (maskFractionTable sFrac eFrac T).getD t 0
        = clamp01 (sFrac + (eFrac - sFrac) * (t : ℚ) / ((T : ℚ) - 1)) ∧
      0 ≤ (maskFractionTable sFrac eFrac T).getD t 0 ∧
      (maskFractionTable sFrac eFrac T).getD t 0 ≤ 1) ∧
    (sFrac ≤ eFrac → ∀ t t', t ≤ t' → t' < T →
      (maskFractionTable sFrac eFrac T).getD t 0
        ≤ (maskFractionTable sFrac eFrac T).getD t' 0) := by
  refine ⟨by simp [maskFractionTable], fun t ht => ?_, fun hse t t' htt ht' => ?_⟩
  · rw [maskFractionTable_getD ht]
    exact ⟨rfl, (maskFractionEntry_mem sFrac eFrac T t).1,
      (maskFractionEntry_mem sFrac eFrac T t).2⟩
  · rw [maskFractionTable_getD (lt_of_le_of_lt htt ht'), maskFractionTable_getD ht']
    exact maskFractionEntry_mono hse hT htt

theorem C7_maskFraction_table_witness :
    (maskFractionTable (1/5) (9/10) 5).getD 2 0
      = clamp01 (1/5 + (9/10 - 1/5) * (2 : ℚ) / ((5 : ℚ) - 1)) ∧
    0 ≤ (maskFractionTable (1/5) (9/10) 5).getD 2 0 ∧
    (maskFractionTable (1/5) (9/10) 5).getD 2 0 ≤ 1 ∧
    (maskFractionTable (1/5) (9/10) 5).getD 1 0
      ≤ (maskFractionTable (1/5) (9/10) 5).getD 3 0 := by
  have h := C7_maskFraction_table (1/5) (9/10) 5 (by norm_num)
  have h2 := h.2.1 2 (by norm_num)
  exact ⟨by exact_mod_cast h2.1, h2.2.1, h2.2.2,
    h.2.2 (by norm_num) 1 3 (by norm_num) (by norm_num)⟩

/-- Padding/truncation to length `L` performed at the start of `AddNoise` and
`AddNoiseMasked`: truncate when too long, otherwise fill the tail with
`PAD`. -/
def padTo (tokens : List ℕ) (L : ℕ) (padID : ℕ) : List ℕ :=
  if L < tokens.length then tokens.take L
  else tokens ++ List.replicate (L - tokens.length) padID

/-- `AddNoise`: after padding, every position is independently masked when
its uniform draw is below `min(0.8, (t+1)/T)` and the token there is not
`PAD` (Go evaluates the draw first, then the pad test). -/
def addNoise (tokens : List ℕ) (L T : ℕ) (padID maskID : ℕ) (t : ℕ)
    (rands : ℕ → ℚ) : List ℕ :=
  let noiseLevel := min (4/5 : ℚ) (((t : ℚ) + 1) / (T : ℚ))
  let base := padTo tokens L padID
  (List.range L).map (fun i =>
    if rands i < noiseLevel ∧ base.getD i 0 ≠ padID then maskID else base.getD i 0)

/-- `AddNoiseMasked`: like `AddNoise` but with the uncapped continuous noise
level `tVal` and the pad test evaluated before the draw. -/
def addNoiseMasked (tokens : List ℕ) (L : ℕ) (padID maskID : ℕ) (tVal : ℚ)
    (rands : ℕ → ℚ) : List ℕ :=
  let base := padTo tokens L padID
  (List.range L).map (fun i =>
    if base.getD i 0 ≠ padID ∧ rands i < tVal then maskID else base.getD i 0)

/-- The indices of the non-`PAD` tokens of `x0`, collected in increasing
order as in `BetterAddNoise`. -/
def nonPadIndices (x0 : List ℕ) (padID : ℕ) : List ℕ :=
  (List.range x0.length).filter (fun i => decide (x0.getD i 0 ≠ padID))

/-- `k := int(math.Round(float64(len(idxes)) * fraction))` in
`BetterAddNoise`. -/
def betterNoiseCount (x0 : List ℕ) (padID : ℕ) (fraction : ℚ) : ℕ :=
  (goRound (((nonPadIndices x0 padID).length : ℚ) * fraction)).toNat

/-- The positions actually masked by `BetterAddNoise`: the first `k` entries
of the shuffled index list `perm`. -/
def betterNoiseSel (x0 : List ℕ) (padID : ℕ) (fraction : ℚ)
    (perm : List ℕ) : List ℕ :=
  perm.take (betterNoiseCount x0 padID fraction)

/-- `BetterAddNoise`: copy `x0`; if `MaskFraction[t] ≤ 0` return the copy;
otherwise write `MASK` at the first `k` entries of the shuffled non-pad index
list (`perm` stands for the result of `rand.Shuffle` on
`nonPadIndices x0 padID`). -/
def betterAddNoise (x0 : List ℕ) (padID maskID : ℕ) (fraction : ℚ)
    (perm : List ℕ) : List ℕ :=
  if fraction ≤ 0 then x0
  else (betterNoiseSel x0 padID fraction perm).foldl (fun l i => l.set i maskID) x0

theorem foldl_set_length (sel : List ℕ) (l : List ℕ) (v : ℕ) :
    (sel.foldl (fun l i => l.set i v) l).length = l.length := by
  induction sel generalizing l with
  | nil => rfl
  | cons j rest ih => simp [List.foldl_cons, ih]

theorem foldl_set_getD_of_not_mem {sel : List ℕ} {i : ℕ} (h : i ∉ sel)
    (l : List ℕ) (v : ℕ) :
    (sel.foldl (fun l i => l.set i v) l).getD i 0 = l.getD i 0 := by
  induction sel generalizing l with
  | nil => rfl
  | cons j rest ih =>
    simp only [List.mem_cons, not_or] at h
    rw [List.foldl_cons, ih h.2]
    simp [List.getD_eq_getElem?_getD, List.getElem?_set_ne (Ne.symm h.1)]

theorem foldl_set_getD_of_mem {sel : List ℕ} {i : ℕ} (h : i ∈ sel)
    (l : List ℕ) (v : ℕ) (hi : i < l.length) :
    (sel.foldl (fun l i => l.set i v) l).getD i 0 = v := by
  induction sel generalizing l with
  | nil => simp at h
  | cons j rest ih =>
    rw [List.foldl_cons]
    by_cases hir : i ∈ rest
    · exact ih hir _ (by simpa using hi)
    · have hij : i = j := by
        rcases List.mem_cons.mp h with h' | h'
        · exact h'
        · exact absurd h' hir
      subst hij
      rw [foldl_set_getD_of_not_mem hir]
      simp [List.getD_eq_getElem?_getD, List.getElem?_set_self hi]

theorem mem_nonPadIndices {x0 : List ℕ} {padID i : ℕ} :
    i ∈ nonPadIndices x0 padID ↔ i < x0.length ∧ x0.getD i 0 ≠ padID := by
  simp [nonPadIndices, List.mem_filter]

theorem nonPadIndices_nodup (x0 : List ℕ) (padID : ℕ) :
    (nonPadIndices x0 padID).Nodup :=
  (List.nodup_range _).filter _

theorem betterNoiseCount_le {x0 : List ℕ} {padID : ℕ} {fraction : ℚ}
    (hf1 : fraction ≤ 1) (hf0 : 0 ≤ fraction) :
    betterNoiseCount x0 padID fraction ≤ (nonPadIndices x0 padID).length := by
  unfold betterNoiseCount goRound
  set N := (nonPadIndices x0 padID).length with hN
  have hq : (0 : ℚ) ≤ (N : ℚ) * fraction := by positivity
  rw [if_pos hq]
  rw [Int.toNat_le]
  have : (N : ℚ) * fraction ≤ (N : ℚ) := by
    nlinarith [Nat.cast_nonneg (α := ℚ) N]
  have hlt : ⌊(N : ℚ) * fraction + 1 / 2⌋ < (N : ℤ) + 1 := by
    rw [Int.floor_lt]
    push_cast
    linarith
  omega

/-- C1: fraction-exact masking. With `perm` an arbitrary permutation of the
non-pad index list (the effect of `rand.Shuffle`) and a schedule fraction
`f ≤ 1` (every `MaskFraction` entry satisfies this, by `C7`): when `f ≤ 0` the
input is returned unchanged; when `0 < f`, `BetterAddNoise` writes `MASK` at
exactly `round(N·f)` distinct non-pad positions (`N` the number of non-pad
tokens), and every `PAD` position and every non-selected position keeps its
value from `x0`. -/
theorem C1_betterAddNoise_fraction_exact (x0 : List ℕ) (padID maskID : ℕ)
    (fraction : ℚ) (perm : List ℕ)
    (hperm : perm.Perm (nonPadIndices x0 padID)) (hf1 : fraction ≤ 1) :
    (fraction ≤ 0 → betterAddNoise x0 padID maskID fraction perm = x0) ∧
    (0 < fraction →
      (betterAddNoise x0 padID maskID fraction perm).length = x0.length ∧
      (betterNoiseSel x0 padID fraction perm).Nodup ∧
      (betterNoiseSel x0 padID fraction perm).length
        = (goRound (((nonPadIndices x0 padID).length : ℚ) * fraction)).toNat ∧
      (∀ i ∈ betterNoiseSel x0 padID fraction perm,
        i < x0.length ∧ x0.getD i 0 ≠ padID ∧
        (betterAddNoise x0 padID maskID fraction perm).getD i 0 = maskID) ∧
      (∀ i, i < x0.length → i ∉ betterNoiseSel x0 padID fraction perm →
        (betterAddNoise x0 padID maskID fraction perm).getD i 0 = x0.getD i 0) ∧
      (∀ i, i < x0.length → x0.getD i 0 = padID →
        (betterAddNoise x0 padID maskID fraction perm).getD i 0 = padID)) := by
  constructor
  · intro hle
    simp [betterAddNoise, hle]
  · intro hpos
    have hne : ¬fraction ≤ 0 := not_le.mpr hpos
    have hres : betterAddNoise x0 padID maskID fraction perm
        = (betterNoiseSel x0 padID fraction perm).foldl (fun l i => l.set i maskID) x0 := by
      simp [betterAddNoise, hne]
    have hselmem : ∀ i ∈ betterNoiseSel x0 padID fraction perm,
        i < x0.length ∧ x0.getD i 0 ≠ padID := by
      intro i hi
      have : i ∈ perm := List.mem_of_mem_take hi
      exact mem_nonPadIndices.mp (hperm.mem_iff.mp this)
    have hk : betterNoiseCount x0 padID fraction ≤ perm.length := by
      rw [hperm.length_eq]
      exact betterNoiseCount_le hf1 hpos.le
    refine ⟨?_, ?_, ?_, ?_, ?_, ?_⟩
    · rw [hres]; exact foldl_set_length _ _ _
    · exact (List.take_sublist _ _).nodup
        (hperm.symm.nodup (nonPadIndices_nodup x0 padID))
    · rw [betterNoiseSel, List.length_take, min_eq_left hk]; rfl
    · intro i hi
      obtain ⟨h1, h2⟩ := hselmem i hi
      exact ⟨h1, h2, by rw [hres]; exact foldl_set_getD_of_mem hi x0 maskID h1⟩
    · intro i _ hni
      rw [hres]
      exact foldl_set_getD_of_not_mem hni x0 maskID
    · intro i hlen hpad
      have hni : i ∉ betterNoiseSel x0 padID fraction perm := by
        intro hmem
        exact (hselmem i hmem).2 hpad
      rw [hres]
      rw [foldl_set_getD_of_not_mem hni x0 maskID, hpad]

theorem C1_betterAddNoise_fraction_exact_witness :
    betterAddNoise [4, 5, 0, 0] 0 1 0 [1, 0] = [4, 5, 0, 0] ∧
    (betterAddNoise [4, 5, 0, 0] 0 1 (1/2) [1, 0]).length = 4 ∧
    (betterNoiseSel [4, 5, 0, 0] 0 (1/2) [1, 0]).length
      = (goRound (((nonPadIndices [4, 5, 0, 0] 0).length : ℚ) * (1/2))).toNat ∧
    (betterAddNoise [4, 5, 0, 0] 0 1 (1/2) [1, 0]).getD 1 0 = 1 ∧
    (betterAddNoise [4, 5, 0, 0] 0 1 (1/2) [1, 0]).getD 0 0 = 4 ∧
    (betterAddNoise [4, 5, 0, 0] 0 1 (1/2) [1, 0]).getD 2 0 = 0 := by
  have h0 := C1_betterAddNoise_fraction_exact [4, 5, 0, 0] 0 1 0 [1, 0]
    (by decide) (by norm_num)
  have h := C1_betterAddNoise_fraction_exact [4, 5, 0, 0] 0 1 (1/2) [1, 0]
    (by decide) (by norm_num)
  have hp := h.2 (by norm_num)
  have hcnt : betterNoiseCount [4, 5, 0, 0] 0 (1/2) = 1 := by
    have hnp : nonPadIndices [4, 5, 0, 0] 0 = [0, 1] := by decide
    rw [betterNoiseCount, hnp]
    norm_num [goRound]
  have hselval : betterNoiseSel [4, 5, 0, 0] 0 (1/2) [1, 0] = [1] := by
    rw [betterNoiseSel, hcnt]
    rfl
  have hsel : (1 : ℕ) ∈ betterNoiseSel [4, 5, 0, 0] 0 (1/2) [1, 0] := by
    rw [hselval]; exact List.mem_singleton.mpr rfl
  refine ⟨h0.1 le_rfl, hp.1, hp.2.2.1, (hp.2.2.2.1 1 hsel).2.2, ?_, ?_⟩
  · exact hp.2.2.2.2.1 0 (by norm_num) (by rw [hselval]; simp)
  · exact hp.2.2.2.2.2 2 (by norm_num) (by decide)

theorem getD_map_range {α : Type} {f : ℕ → α} {L i : ℕ} (h : i < L) (d : α) :
    ((List.range L).map f).getD i d = f i := by
  simp [List.getD_eq_getElem?_getD, List.getElem?_map, List.getElem?_range h]

/-- Element-wise gradient clipping to `[-5, 5]`, shared by all three
trainers. -/
def clip5 (d : ℚ) : ℚ := if d > 5 then 5 else if d < -5 then -5 else d

/-- One error-term row at a loss-contributing position: for every vocabulary
entry `m`, `probs[m] - 1{m = target}`, clipped. Shared by the two masked-loss
trainers. -/
def maskedErrRow (probs : List ℚ) (target : ℕ) (V : ℕ) : List ℚ :=
  (List.range V).map (fun m => clip5 (probs.getD m 0 - if m = target then 1 else 0))

/-- Error-term row of the basic `Train` at one position (it iterates over the
whole softmax row, at every position, masked or not). -/
def trainErrRow (probs : List ℚ) (target : ℕ) : List ℚ :=
  (List.range probs.length).map
    (fun j => clip5 (probs.getD j 0 - if j = target then 1 else 0))

/-- Per-sample error tensor of the basic `Train`: a full row at EVERY
position, the target being the clean token there.  `probsAt i` is the oracle
for `Softmax(output[i])`. -/
def trainErrorRows (tokens : List ℕ) (probsAt : ℕ → List ℚ) (L : ℕ) :
    List (List ℚ) :=
  (List.range L).map (fun i => trainErrRow (probsAt i) (tokens.getD i 0))

/-- Positions whose `-ln(max(probs[target], 1e-10))` term is subtracted into
the loss accumulator by the basic `Train`: every position `0..L-1`. -/
def trainLossPositions (L : ℕ) : List ℕ := List.range L

/-- Positions whose cross-entropy term enters the loss accumulator in
`trainMaskedDiffusion` and in `TrainBetterDiffusion`: exactly those where the
noisy token is `MASK`. -/
def maskedLossPositions (xt : List ℕ) (maskID : ℕ) (L : ℕ) : List ℕ :=
  (List.range L).filter (fun k => decide (xt.getD k 0 = maskID))

/-- Per-sample error tensor built inside a `trainMaskedDiffusion` worker
([L][V] view of the flat `batchErrorTerms[j]`): clipped softmax deltas where
the noisy token is `MASK`, explicitly zeroed rows elsewhere. -/
def trainMaskedErrorRows (xt x0 : List ℕ) (maskID : ℕ) (probsAt : ℕ → List ℚ)
    (L V : ℕ) : List (List ℚ) :=
  (List.range L).map (fun k =>
    if xt.getD k 0 = maskID then maskedErrRow (probsAt k) (x0.getD k 0) V
    else List.replicate V 0)

/-- Per-sample error tensor of `TrainBetterDiffusion` ([L][V] reshape of the
flat `errorTerms`): rows at masked positions carry clipped softmax deltas,
all other rows stay at their zero initialisation. -/
def betterErrorRows (xt x0 : List ℕ) (maskID : ℕ) (probsAt : ℕ → List ℚ)
    (L V : ℕ) : List (List ℚ) :=
  (List.range L).map (fun i =>
    if xt.getD i 0 = maskID then maskedErrRow (probsAt i) (x0.getD i 0) V
    else List.replicate V 0)

theorem mem_maskedLossPositions {xt : List ℕ} {maskID L i : ℕ} :
    i ∈ maskedLossPositions xt maskID L ↔ i < L ∧ xt.getD i 0 = maskID := by
  simp [maskedLossPositions, List.mem_filter]

theorem addNoise_preserves_pad {tokens : List ℕ} {L T pad mask t : ℕ}
    {rands : ℕ → ℚ} {i : ℕ} (hi : i < L)
    (hp : (padTo tokens L pad).getD i 0 = pad) :
    (addNoise tokens L T pad mask t rands).getD i 0 = pad := by
  unfold addNoise
  rw [getD_map_range hi, hp]
  simp

theorem addNoiseMasked_preserves_pad {tokens : List ℕ} {L pad mask : ℕ}
    {tVal : ℚ} {rands : ℕ → ℚ} {i : ℕ} (hi : i < L)
    (hp : (padTo tokens L pad).getD i 0 = pad) :
    (addNoiseMasked tokens L pad mask tVal rands).getD i 0 = pad := by
  unfold addNoiseMasked
  rw [getD_map_range hi, hp]
  simp

theorem betterAddNoise_preserves_pad {x0 : List ℕ} {pad mask : ℕ}
    {fraction : ℚ} {perm : List ℕ}
    (hperm : perm.Perm (nonPadIndices x0 pad)) {i : ℕ}
    (hp : x0.getD i 0 = pad) :
    (betterAddNoise x0 pad mask fraction perm).getD i 0 = pad := by
  unfold betterAddNoise
  split
  · exact hp
  · have hni : i ∉ betterNoiseSel x0 pad fraction perm := by
      intro hmem
      have : i ∈ perm := List.mem_of_mem_take hmem
      exact (mem_nonPadIndices.mp (hperm.mem_iff.mp this)).2 hp
    rw [foldl_set_getD_of_not_mem hni x0 mask, hp]

/-- C3 (amended): PAD positions are never masked by any of the three noising
functions, and never contribute a loss term or a non-zero error-term row in
the two masked-loss trainers (`trainMaskedDiffusion`, `TrainBetterDiffusion`).
The basic `Train`, however, computes its loss and error terms densely at
every position, PAD included: see `C3_basic_train_counterexample`. -/
theorem C3_pad_invariant (tokens x0 : List ℕ) (L T V pad mask t i : ℕ)
    (tVal fraction : ℚ) (rands : ℕ → ℚ) (perm : List ℕ)
    (probsAt : ℕ → List ℚ)
    (hperm : perm.Perm (nonPadIndices x0 pad)) (hpm : pad ≠ mask)
    (hi : i < L) :
    ((padTo tokens L pad).getD i 0 = pad →
      (addNoise tokens L T pad mask t rands).getD i 0 = pad ∧
      (addNoiseMasked tokens L pad mask tVal rands).getD i 0 = pad) ∧
    (x0.getD i 0 = pad →
      (betterAddNoise x0 pad mask fraction perm).getD i 0 = pad) ∧
    ((padTo x0 L pad).getD i 0 = pad →
      i ∉ maskedLossPositions (addNoiseMasked x0 L pad mask tVal rands) mask L ∧
      (trainMaskedErrorRows (addNoiseMasked x0 L pad mask tVal rands)
          (padTo x0 L pad) mask probsAt L V).getD i []
        = List.replicate V 0) ∧
    (x0.getD i 0 = pad →
      i ∉ maskedLossPositions (betterAddNoise x0 pad mask fraction perm) mask L ∧
      (betterErrorRows (betterAddNoise x0 pad mask fraction perm) x0 mask
          probsAt L V).getD i []
        = List.replicate V 0) := by
  refine ⟨fun hp => ⟨addNoise_preserves_pad hi hp, addNoiseMasked_preserves_pad hi hp⟩,
    fun hp => betterAddNoise_preserves_pad hperm hp, fun hp => ?_, fun hp => ?_⟩
  · have hxt : (addNoiseMasked x0 L pad mask tVal rands).getD i 0 = pad :=
      addNoiseMasked_preserves_pad hi hp
    exact ⟨fun hmem => hpm (hxt.symm.trans (mem_maskedLossPositions.mp hmem).2),
      by rw [trainMaskedErrorRows, getD_map_range hi, hxt, if_neg hpm]⟩
  · have hxt : (betterAddNoise x0 pad mask fraction perm).getD i 0 = pad :=
      betterAddNoise_preserves_pad hperm hp
    exact ⟨fun hmem => hpm (hxt.symm.trans (mem_maskedLossPositions.mp hmem).2),
      by rw [betterErrorRows, getD_map_range hi, hxt, if_neg hpm]⟩

theorem C3_pad_invariant_witness :
    (addNoise [4] 2 3 0 1 1 (fun _ => 0)).getD 1 0 = 0 ∧
    (addNoiseMasked [4] 2 0 1 1 (fun _ => 0)).getD 1 0 = 0 ∧
    (betterAddNoise [4, 0] 0 1 1 [0]).getD 1 0 = 0 ∧
    1 ∉ maskedLossPositions (addNoiseMasked [4] 2 0 1 1 (fun _ => 0)) 1 2 ∧
    (trainMaskedErrorRows (addNoiseMasked [4] 2 0 1 1 (fun _ => 0))
        (padTo [4] 2 0) 1 (fun _ => [1/2, 1/2, 0, 0, 0, 0]) 2 6).getD 1 []
      = List.replicate 6 0 ∧
    1 ∉ maskedLossPositions (betterAddNoise [4, 0] 0 1 1 [0]) 1 2 ∧
    (betterErrorRows (betterAddNoise [4, 0] 0 1 1 [0]) [4, 0] 1
        (fun _ => [1/2, 1/2, 0, 0, 0, 0]) 2 6).getD 1 []
      = List.replicate 6 0 := by
  have h := C3_pad_invariant [4] [4, 0] 2 3 6 0 1 1 1 1 1 (fun _ => 0) [0]
    (fun _ => [1/2, 1/2, 0, 0, 0, 0]) (by decide) (by decide) (by decide)
  have h1 := h.1 (by decide)
  have h3 := h.2.2.1 (by decide)
  have h4 := h.2.2.2 (by decide)
  exact ⟨h1.1, h1.2, h.2.1 (by decide), h3.1, h3.2, h4.1, h4.2⟩

/-- C3 counterexample, refuting the claim for the basic `Train`: position 1
of the padded one-word sample `[4]` holds PAD, yet it is in `Train`'s
loss-position set and its error-term row is non-zero for an ordinary softmax
output. -/
theorem C3_basic_train_counterexample :
    (padTo [4] 2 0).getD 1 0 = 0 ∧
    1 ∈ trainLossPositions 2 ∧
    (trainErrorRows (padTo [4] 2 0) (fun _ => [1/2, 1/2, 0, 0, 0, 0]) 2).getD 1 []
      ≠ List.replicate 6 (0 : ℚ) := by
  have hrow : (trainErrorRows (padTo [4] 2 0)
        (fun _ => [1/2, 1/2, 0, 0, 0, 0]) 2).getD 1 []
      = trainErrRow [1/2, 1/2, 0, 0, 0, 0] ((padTo [4] 2 0).getD 1 0) := by
    rw [trainErrorRows, getD_map_range (by norm_num)]
  have hpad : (padTo [4] 2 0).getD 1 0 = 0 := by decide
  have hval : (trainErrRow [1/2, 1/2, 0, 0, 0, 0] 0).getD 1 0 = 1/2 := by
    rw [trainErrRow, getD_map_range (by decide)]
    norm_num [clip5]
  refine ⟨hpad, by decide, fun h => ?_⟩
  rw [hrow, hpad] at h
  have hc := congrArg (fun l => l.getD 1 0) h
  simp only at hc
  rw [hval] at hc
  simp at hc

/-- One per-batch result emitted on `errorTermsChan` by a worker goroutine of
`trainMaskedDiffusion`: the batch index and that batch's per-sample flat
error-term rows. -/
structure BatchResult where
  batchIdx : ℕ
  terms : List (List ℚ)
deriving DecidableEq

/-- One write of the aggregation loop of `trainMaskedDiffusion`:
`accumulatedErrorTerms[start+j] = terms[j]`, guarded by
`start+j < len(accumulatedErrorTerms)`. -/
def aggWrite (acc : List (List ℚ)) (p : ℕ × List ℚ) : List (List ℚ) :=
  if p.1 < acc.length then acc.set p.1 p.2 else acc

/-- The writes triggered by one drained result: sample `j` of batch `b` goes
to corpus index `b·batchSize + j`. -/
def writesOf (batchSize : ℕ) (r : BatchResult) : List (ℕ × List ℚ) :=
  (List.range r.terms.length).map
    (fun j => (r.batchIdx * batchSize + j, r.terms.getD j []))

/-- Processing one result drained from `errorTermsChan`. -/
def applyResult (batchSize : ℕ) (acc : List (List ℚ)) (r : BatchResult) :
    List (List ℚ) :=
  (writesOf batchSize r).foldl aggWrite acc

/-- The aggregation loop of one epoch: fold the drained results, in arrival
order, into the accumulator. -/
def aggregateErrorTerms (batchSize : ℕ) (acc : List (List ℚ))
    (results : List BatchResult) : List (List ℚ) :=
  results.foldl (applyResult batchSize) acc

/-- The arguments handed to `model.Network.Backward` during one epoch of
`trainMaskedDiffusion`: after both channels are drained there is exactly one
backward/update call, with the fully aggregated tensor. -/
def epochBackwardCalls (batchSize : ℕ) (acc : List (List ℚ))
    (results : List BatchResult) : List (List (List ℚ)) :=
  [aggregateErrorTerms batchSize acc results]

theorem aggWrite_length (acc : List (List ℚ)) (p : ℕ × List ℚ) :
    (aggWrite acc p).length = acc.length := by
  unfold aggWrite
  split <;> simp

theorem foldl_aggWrite_length (l : List (ℕ × List ℚ)) (acc : List (List ℚ)) :
    (l.foldl aggWrite acc).length = acc.length := by
  induction l generalizing acc with
  | nil => rfl
  | cons p rest ih => rw [List.foldl_cons, ih, aggWrite_length]

theorem aggWrite_comm {i i' : ℕ} (h : i ≠ i') (acc : List (List ℚ))
    (x y : List ℚ) :
    aggWrite (aggWrite acc (i, x)) (i', y)
      = aggWrite (aggWrite acc (i', y)) (i, x) := by
  by_cases h1 : i < acc.length <;> by_cases h2 : i' < acc.length <;>
    simp [aggWrite, h1, h2, List.set_comm x y acc h]

theorem foldl_aggWrite_comm {l : List (ℕ × List ℚ)} {i : ℕ}
    (h : ∀ p ∈ l, p.1 ≠ i) (acc : List (List ℚ)) (x : List ℚ) :
    l.foldl aggWrite (aggWrite acc (i, x))
      = aggWrite (l.foldl aggWrite acc) (i, x) := by
  induction l generalizing acc with
  | nil => rfl
  | cons p rest ih =>
    rw [List.foldl_cons, List.foldl_cons]
    have hp : p.1 ≠ i := h p (List.mem_cons_self _ _)
    have hrest : ∀ q ∈ rest, q.1 ≠ i := fun q hq => h q (List.mem_cons_of_mem _ hq)
    have hswap : aggWrite (aggWrite acc (i, x)) p
        = aggWrite (aggWrite acc p) (i, x) := aggWrite_comm (Ne.symm hp) acc x p.2
    rw [hswap]
    exact ih hrest (aggWrite acc p)

theorem foldl_foldl_aggWrite_comm {l1 l2 : List (ℕ × List ℚ)}
    (h : ∀ p ∈ l1, ∀ q ∈ l2, p.1 ≠ q.1) (acc : List (List ℚ)) :
    l2.foldl aggWrite (l1.foldl aggWrite acc)
      = l1.foldl aggWrite (l2.foldl aggWrite acc) := by
  induction l2 generalizing acc with
  | nil => rfl
  | cons q rest ih =>
    rw [List.foldl_cons, List.foldl_cons]
    have hq : ∀ p ∈ l1, p.1 ≠ q.1 := fun p hp => h p hp q (List.mem_cons_self _ _)
    have hrest : ∀ p ∈ l1, ∀ q' ∈ rest, p.1 ≠ q'.1 :=
      fun p hp q' hq' => h p hp q' (List.mem_cons_of_mem _ hq')
    rw [← foldl_aggWrite_comm hq acc q.2, ih hrest]

theorem batch_index_disjoint {b1 b2 j1 j2 bs : ℕ} (hbs : 0 < bs)
    (hb : b1 ≠ b2) (hj1 : j1 < bs) (hj2 : j2 < bs) :
    b1 * bs + j1 ≠ b2 * bs + j2 := by
  intro h
  have e1 : (b1 * bs + j1) / bs = b1 := by
    rw [Nat.mul_comm, Nat.mul_add_div hbs, Nat.div_eq_of_lt hj1, Nat.add_zero]
  have e2 : (b2 * bs + j2) / bs = b2 := by
    rw [Nat.mul_comm, Nat.mul_add_div hbs, Nat.div_eq_of_lt hj2, Nat.add_zero]
  exact hb (e1 ▸ e2 ▸ congrArg (· / bs) h)

theorem mem_writesOf {bs : ℕ} {r : BatchResult} {p : ℕ × List ℚ}
    (hp : p ∈ writesOf bs r) :
    ∃ j, j < r.terms.length ∧ p.1 = r.batchIdx * bs + j := by
  unfold writesOf at hp
  obtain ⟨j, hj, hje⟩ := List.mem_map.mp hp
  exact ⟨j, List.mem_range.mp hj, by rw [← hje]⟩

theorem applyResult_comm {bs : ℕ} (hbs : 0 < bs) {r1 r2 : BatchResult}
    (hb : r1.batchIdx ≠ r2.batchIdx) (h1 : r1.terms.length ≤ bs)
    (h2 : r2.terms.length ≤ bs) (acc : List (List ℚ)) :
    applyResult bs (applyResult bs acc r1) r2
      = applyResult bs (applyResult bs acc r2) r1 := by
  unfold applyResult
  apply foldl_foldl_aggWrite_comm
  intro p hp q hq
  obtain ⟨j1, hj1, he1⟩ := mem_writesOf hp
  obtain ⟨j2, hj2, he2⟩ := mem_writesOf hq
  rw [he1, he2]
  exact batch_index_disjoint hbs hb (lt_of_lt_of_le hj1 h1) (lt_of_lt_of_le hj2 h2)

theorem foldl_aggWrite_getD_untouched {l : List (ℕ × List ℚ)} {i : ℕ}
    (h : ∀ p ∈ l, p.1 ≠ i) (acc : List (List ℚ)) :
    (l.foldl aggWrite acc).getD i [] = acc.getD i [] := by
  induction l generalizing acc with
  | nil => rfl
  | cons p rest ih =>
    rw [List.foldl_cons, ih (fun q hq => h q (List.mem_cons_of_mem _ hq))]
    have hp : p.1 ≠ i := h p (List.mem_cons_self _ _)
    unfold aggWrite
    split
    · simp [List.getD_eq_getElem?_getD, List.getElem?_set_ne hp]
    · rfl

theorem foldl_aggWrite_getD_of_mem {l : List (ℕ × List ℚ)} {i : ℕ} {x : List ℚ}
    (hmem : (i, x) ∈ l) (hnd : (l.map Prod.fst).Nodup) (acc : List (List ℚ))
    (hi : i < acc.length) :
    (l.foldl aggWrite acc).getD i [] = x := by
  induction l generalizing acc with
  | nil => simp at hmem
  | cons p rest ih =>
    rw [List.foldl_cons]
    rcases List.mem_cons.mp hmem with he | hr
    · have hpfst : p.1 = i := by rw [← he]
      have hnotin : p.1 ∉ rest.map Prod.fst :=
        (List.nodup_cons.mp (by simpa using hnd)).1
      have hni : ∀ q ∈ rest, q.1 ≠ i := by
        intro q hq hqi
        apply hnotin
        rw [hpfst, ← hqi]
        exact List.mem_map_of_mem Prod.fst hq
      rw [foldl_aggWrite_getD_untouched hni, ← he]
      unfold aggWrite
      rw [if_pos hi]
      simp [List.getD_eq_getElem?_getD, List.getElem?_set_self hi]
    · have hnd' : (rest.map Prod.fst).Nodup :=
        (List.nodup_cons.mp (by simpa using hnd)).2
      exact ih hr hnd' (aggWrite acc p) (by rw [aggWrite_length]; exact hi)

theorem aggregate_getD_untouched {bs : ℕ} {rs : List BatchResult} {i : ℕ}
    (h : ∀ r ∈ rs, ∀ p ∈ writesOf bs r, p.1 ≠ i) (acc : List (List ℚ)) :
    (rs.foldl (applyResult bs) acc).getD i [] = acc.getD i [] := by
  induction rs generalizing acc with
  | nil => rfl
  | cons r rest ih =>
    rw [List.foldl_cons, ih (fun r' hr' => h r' (List.mem_cons_of_mem _ hr'))]
    exact foldl_aggWrite_getD_untouched (h r (List.mem_cons_self _ _)) acc

theorem writesOf_fst_nodup (bs : ℕ) (r : BatchResult) :
    ((writesOf bs r).map Prod.fst).Nodup := by
  unfold writesOf
  rw [List.map_map]
  apply List.Nodup.map
  · intro a b hab
    simp only [Function.comp] at hab
    omega
  · exact List.nodup_range _

theorem applyResult_getD {bs : ℕ} {r : BatchResult} {j : ℕ}
    (hj : j < r.terms.length) (acc : List (List ℚ))
    (hlt : r.batchIdx * bs + j < acc.length) :
    (applyResult bs acc r).getD (r.batchIdx * bs + j) [] = r.terms.getD j [] := by
  apply foldl_aggWrite_getD_of_mem _ (writesOf_fst_nodup bs r) acc hlt
  unfold writesOf
  exact List.mem_map.mpr ⟨j, List.mem_range.mpr hj, rfl⟩

theorem applyResult_comm_of_mem {bs : ℕ} (hbs : 0 < bs)
    {results : List BatchResult}
    (hnodup : (results.map BatchResult.batchIdx).Nodup)
    (hlen : ∀ r ∈ results, r.terms.length ≤ bs) :
    ∀ r1 ∈ results, ∀ r2 ∈ results, ∀ acc,
      applyResult bs (applyResult bs acc r1) r2
        = applyResult bs (applyResult bs acc r2) r1 := by
  intro r1 h1 r2 h2 acc
  by_cases he : r1 = r2
  · rw [he]
  · have hb : r1.batchIdx ≠ r2.batchIdx :=
      fun hbe => he (List.inj_on_of_nodup_map hnodup h1 h2 hbe)
    exact applyResult_comm hbs hb (hlen r1 h1) (hlen r2 h2) acc

/-- C2: order-independent aggregation in `trainMaskedDiffusion`. Given the
complete set of per-batch results (pairwise-distinct batch indices, each
batch holding at most `batchSize` sample rows), the aggregation loop yields
the same accumulated error-term tensor for every arrival order of the
results; batch `b`'s sample `j` lands at corpus index `b·batchSize + j`; and
the epoch issues exactly one backward call, with that tensor. -/
theorem C2_aggregation_order_independent (batchSize : ℕ) (hbs : 0 < batchSize)
    (acc : List (List ℚ)) (results results' : List BatchResult)
    (hperm : results'.Perm results)
    (hnodup : (results.map BatchResult.batchIdx).Nodup)
    (hlen : ∀ r ∈ results, r.terms.length ≤ batchSize) :
    aggregateErrorTerms batchSize acc results'
      = aggregateErrorTerms batchSize acc results ∧
    (∀ r ∈ results, ∀ j, j < r.terms.length →
      r.batchIdx * batchSize + j < acc.length →
      (aggregateErrorTerms batchSize acc results).getD
          (r.batchIdx * batchSize + j) [] = r.terms.getD j []) ∧
    (epochBackwardCalls batchSize acc results).length = 1 ∧
    (epochBackwardCalls batchSize acc results).getD 0 []
      = aggregateErrorTerms batchSize acc results := by
  have hcomm := applyResult_comm_of_mem hbs hnodup hlen
  refine ⟨?_, ?_, rfl, rfl⟩
  · exact hperm.foldl_eq'
      (fun r1 h1 r2 h2 z =>
        hcomm r1 (hperm.mem_iff.mp h1) r2 (hperm.mem_iff.mp h2) z) acc
  · intro r hr j hj hlt
    have hpc : results.Perm (r :: results.erase r) := List.perm_cons_erase hr
    have hrw : aggregateErrorTerms batchSize acc results
        = aggregateErrorTerms batchSize acc (r :: results.erase r) :=
      hpc.foldl_eq' (fun r1 h1 r2 h2 z => hcomm r1 h1 r2 h2 z) acc
    rw [hrw]
    have hndl : results.Nodup := hnodup.of_map
    have huntouched : ∀ r' ∈ results.erase r, ∀ p ∈ writesOf batchSize r',
        p.1 ≠ r.batchIdx * batchSize + j := by
      intro r' hr' p hp
      have hmem' : r' ≠ r ∧ r' ∈ results := (hndl.mem_erase_iff).mp hr'
      have hb : r'.batchIdx ≠ r.batchIdx :=
        fun hbe => hmem'.1 (List.inj_on_of_nodup_map hnodup hmem'.2 hr hbe)
      obtain ⟨j', hj', he⟩ := mem_writesOf hp
      rw [he]
      exact batch_index_disjoint hbs hb
        (lt_of_lt_of_le hj' (hlen r' hmem'.2)) (lt_of_lt_of_le hj (hlen r hr))
    calc (aggregateErrorTerms batchSize acc (r :: results.erase r)).getD
          (r.batchIdx * batchSize + j) []
        = (applyResult batchSize acc r).getD (r.batchIdx * batchSize + j) [] := by
          rw [aggregateErrorTerms, List.foldl_cons]
          exact aggregate_getD_untouched huntouched _
      _ = r.terms.getD j [] := applyResult_getD hj acc hlt

theorem C2_aggregation_order_independent_witness :
    aggregateErrorTerms 2 (List.replicate 3 [])
        [⟨1, [[3]]⟩, ⟨0, [[1], [2]]⟩]
      = aggregateErrorTerms 2 (List.replicate 3 [])
        [⟨0, [[1], [2]]⟩, ⟨1, [[3]]⟩] ∧
    (aggregateErrorTerms 2 (List.replicate 3 [])
        [⟨0, [[1], [2]]⟩, ⟨1, [[3]]⟩]).getD (1 * 2 + 0) [] = [3] ∧
    (epochBackwardCalls 2 (List.replicate 3 [])
        [⟨0, [[1], [2]]⟩, ⟨1, [[3]]⟩]).length = 1 := by
  have h := C2_aggregation_order_independent 2 (by norm_num) (List.replicate 3 [])
    [⟨0, [[1], [2]]⟩, ⟨1, [[3]]⟩] [⟨1, [[3]]⟩, ⟨0, [[1], [2]]⟩]
    (List.Perm.swap _ _ _) (by decide)
    (by intro r hr; fin_cases hr <;> simp)
  refine ⟨h.1, ?_, h.2.2.1⟩
  have hp := h.2.1 ⟨1, [[3]]⟩ (List.mem_cons_of_mem _ (List.mem_cons_self _ _))
    0 (by norm_num) (by norm_num)
  exact hp

/-- Stable insertion into a probability-descending list.  Models
`sort.Slice(topK, func(i, j) { return topK[i].prob > topK[j].prob })`: the Go
sort is unstable, so any order consistent with the comparator is an
admissible behaviour; this embedding fixes the stable one (ties keep their
original relative order). -/
def insertDesc (x : ℕ × ℚ) : List (ℕ × ℚ) → List (ℕ × ℚ)
  | [] => [x]
  | y :: ys => if y.2 ≤ x.2 then x :: y :: ys else y :: insertDesc x ys

/-- Sorting of the candidate list by decreasing probability. -/
def sortDesc (l : List (ℕ × ℚ)) : List (ℕ × ℚ) :=
  l.foldr insertDesc []

/-- The inverse-CDF selection loop shared by both generators: walk the
candidate list accumulating probabilities, pick the first entry whose
cumulative sum reaches the draw `r`, and keep the default (the first
candidate's index) if the sum never reaches `r`. -/
def invCDF (l : List (ℕ × ℚ)) (r : ℚ) (cum : ℚ) (sel : ℕ) : ℕ :=
  match l with
  | [] => sel
  | p :: rest => if r ≤ cum + p.2 then p.1 else invCDF rest r (cum + p.2) sel

theorem insertDesc_perm (x : ℕ × ℚ) (l : List (ℕ × ℚ)) :
    (insertDesc x l).Perm (x :: l) := by
  induction l with
  | nil => exact List.Perm.refl _
  | cons y ys ih =>
    unfold insertDesc
    split
    · exact List.Perm.refl _
    · exact (List.Perm.cons y ih).trans (List.Perm.swap x y ys)

theorem sortDesc_perm (l : List (ℕ × ℚ)) : (sortDesc l).Perm l := by
  induction l with
  | nil => exact List.Perm.refl _
  | cons x xs ih =>
    unfold sortDesc at ih ⊢
    rw [List.foldr_cons]
    exact (insertDesc_perm x _).trans (List.Perm.cons x ih)

theorem insertDesc_sorted {x : ℕ × ℚ} {l : List (ℕ × ℚ)}
    (h : l.Pairwise (fun a b => b.2 ≤ a.2)) :
    (insertDesc x l).Pairwise (fun a b => b.2 ≤ a.2) := by
  induction l with
  | nil => simp [insertDesc]
  | cons y ys ih =>
    unfold insertDesc
    split
    · rename_i hle
      refine List.Pairwise.cons ?_ h
      intro z hz
      rcases List.mem_cons.mp hz with he | hm
      · rw [he]; exact hle
      · exact le_trans (List.rel_of_pairwise_cons h hm) hle
    · rename_i hnle
      have hys : ys.Pairwise (fun a b => b.2 ≤ a.2) := (List.pairwise_cons.mp h).2
      refine List.pairwise_cons.mpr ⟨?_, ih hys⟩
      intro z hz
      rcases List.mem_cons.mp ((insertDesc_perm x ys).mem_iff.mp hz) with he | hm
      · rw [he]; exact le_of_lt (not_le.mp hnle)
      · exact List.rel_of_pairwise_cons h hm

theorem sortDesc_sorted (l : List (ℕ × ℚ)) :
    (sortDesc l).Pairwise (fun a b => b.2 ≤ a.2) := by
  induction l with
  | nil => simp [sortDesc]
  | cons x xs ih =>
    unfold sortDesc at ih ⊢
    rw [List.foldr_cons]
    exact insertDesc_sorted ih

/-- On a sorted candidate list, every kept (first `k`) entry has probability
at least that of every dropped entry: `take k` really is a set of
highest-probability candidates. -/
theorem sortDesc_take_ge_drop (l : List (ℕ × ℚ)) (k : ℕ) :
    ∀ p ∈ (sortDesc l).take k, ∀ q ∈ (sortDesc l).drop k, q.2 ≤ p.2 := by
  intro p hp q hq
  have hs := sortDesc_sorted l
  rw [← List.take_append_drop k (sortDesc l)] at hs
  have := (List.pairwise_append.mp hs).2.2
  exact this p hp q hq

theorem invCDF_mem (l : List (ℕ × ℚ)) (r : ℚ) (cum : ℚ) (sel : ℕ) :
    invCDF l r cum sel = sel ∨ invCDF l r cum sel ∈ l.map Prod.fst := by
  induction l generalizing cum with
  | nil => exact Or.inl rfl
  | cons p rest ih =>
    unfold invCDF
    split
    · exact Or.inr (List.mem_map.mpr ⟨p, List.mem_cons_self _ _, rfl⟩)
    · rcases ih (cum + p.2) with h | h
      · exact Or.inl h
      · exact Or.inr (List.mem_map.mpr
          (by
            obtain ⟨q, hq, hqe⟩ := List.mem_map.mp h
            exact ⟨q, List.mem_cons_of_mem _ hq, hqe⟩))

/-- The candidate list `topK` built by `GenerateMasked` at one still-masked
position: for every vocabulary index `j`, the score `probs[j]/Temperature`,
overridden to `0` at the `MASK` index. -/
def maskedCand (probs : List ℚ) (temp : ℚ) (maskID V : ℕ) : List (ℕ × ℚ) :=
  (List.range V).map (fun j =>
    (j, if j = maskID then 0 else probs.getD j 0 / temp))

/-- Per-position sampling of `GenerateMasked`, given the softmax row `probs`
and the draw `r`.  `none` models the Go panics: `topK[:TopK]` with
`TopK < 0` or `TopK > VocabSize`, and `topK[0]` on the empty truncation
(`TopK = 0`).  When the truncated mass is zero the code substitutes the
uniform distribution `1/TopK` over the kept candidates and still samples. -/
def maskedSelect (probs : List ℚ) (temp : ℚ) (maskID : ℕ) (topK : ℤ)
    (V : ℕ) (r : ℚ) : Option ℕ :=
  let sorted := sortDesc (maskedCand probs temp maskID V)
  if topK < 0 ∨ (V : ℤ) < topK then none
  else
    match sorted.take topK.toNat with
    | [] => none
    | first :: rest =>
      let kept := first :: rest
      let s := (kept.map Prod.snd).sum
      let kept2 := if s = 0 then kept.map (fun p => (p.1, 1 / (topK : ℚ)))
                   else kept.map (fun p => (p.1, p.2 / s))
      some (invCDF kept2 r 0 first.1)

/-- `GenerateBetter` at one still-masked position: temperature scaling of the
softmax row, guarded by `Temperature > 1e-12`. -/
def betterScaled (probs : List ℚ) (temp : ℚ) : List ℚ :=
  if temp > 1 / 10 ^ 12 then probs.map (fun p => p / temp) else probs

/-- ...then the `MASK` entry is zeroed (`probs[maskID] = 0`). -/
def betterZeroed (probs : List ℚ) (temp : ℚ) (maskID : ℕ) : List ℚ :=
  (betterScaled probs temp).set maskID 0

/-- The sequential clamp of `GenerateBetter`:
`if TopK < 1 { TopK = 1 }; if TopK > len { TopK = len }`. -/
def betterClampK (topK : ℤ) (len : ℕ) : ℤ :=
  if (len : ℤ) < (if topK < 1 then 1 else topK) then (len : ℤ)
  else (if topK < 1 then 1 else topK)

/-- The renormalised probability row of `GenerateBetter` on the sampling
path: every entry of the zeroed row divided by the total remaining mass. -/
def betterNormed (probs : List ℚ) (temp : ℚ) (maskID : ℕ) : List ℚ :=
  (betterZeroed probs temp maskID).map
    (fun p => p / (betterZeroed probs temp maskID).sum)

/-- The candidate list `topKSlice` of `GenerateBetter`: each vocabulary
index paired with its renormalised probability. -/
def betterCand (probs : List ℚ) (temp : ℚ) (maskID : ℕ) : List (ℕ × ℚ) :=
  (List.range (betterNormed probs temp maskID).length).map
    (fun j => (j, (betterNormed probs temp maskID).getD j 0))

/-- Per-position sampling of `GenerateBetter`: returns the chosen token, the
(possibly clamped, persistently written) `Config.TopK`, and whether a random
draw was consumed.  Degenerate mass (`sum < 1e-12`) resolves to token `0`
without drawing and without touching `Config.TopK`; `none` models the
`topKSlice[0]` panic on an empty candidate list. -/
def betterSelect (probs : List ℚ) (temp : ℚ) (maskID : ℕ) (topK : ℤ)
    (r : ℚ) : Option (ℕ × ℤ × Bool) :=
  if (betterZeroed probs temp maskID).sum < 1 / 10 ^ 12 then
    some (0, topK, false)
  else
    let sorted := sortDesc (betterCand probs temp maskID)
    let k2 := betterClampK topK sorted.length
    match sorted.take k2.toNat with
    | [] => none
    | first :: rest => some (invCDF (first :: rest) r 0 first.1, k2, true)

/-- Working state of `GenerateMasked`: the current sequence and the number of
random draws consumed so far. -/
structure MGenState where
  xcur : List ℕ
  n : ℕ
deriving DecidableEq

/-- Working state of `GenerateBetter`: additionally carries `Config.TopK`,
which `GenerateBetter` mutates in place when clamping. -/
structure BGenState where
  xcur : List ℕ
  topK : ℤ
  n : ℕ
deriving DecidableEq

/-- The still-masked positions at the start of a generation step
(`maskedPositions`), collected in increasing position order. -/
def maskedPositionsOf (xcur : List ℕ) (maskID L : ℕ) : List ℕ :=
  (List.range L).filter (fun i => decide (xcur.getD i 0 = maskID))

/-- One step `s` of `GenerateMasked` (scanning `s` from `T` down to `1`):
resolve every still-masked position from the snapshot's logits, then, when
`s > 1`, re-mask each just-resolved position with probability `(s-1)/s`. -/
def maskedStep (probsOf : List ℕ → ℕ → List ℚ) (temp : ℚ) (maskID V L : ℕ)
    (topK : ℤ) (rng : ℕ → ℚ) (s : ℕ) (st : MGenState) : Option MGenState :=
  let snap := st.xcur
  let masked := maskedPositionsOf snap maskID L
  let resolved := masked.foldl (fun acc i =>
    acc.bind (fun st' =>
      (maskedSelect (probsOf snap i) temp maskID topK V (rng st'.n)).map
        (fun c => MGenState.mk (st'.xcur.set i c) (st'.n + 1))))
    (some st)
  resolved.map (fun st' =>
    if 1 < s then
      masked.foldl (fun acc i =>
        if rng acc.n < ((s : ℚ) - 1) / (s : ℚ)
        then MGenState.mk (acc.xcur.set i maskID) (acc.n + 1)
        else MGenState.mk acc.xcur (acc.n + 1)) st'
    else st')

/-- The final scrub shared by both generators: any position still equal to
`MASK` is forced to token id `0`. -/
def scrubMask (maskID : ℕ) (xcur : List ℕ) : List ℕ :=
  xcur.map (fun tok => if tok = maskID then 0 else tok)

/-- `GenerateMasked`: start fully masked, run steps `s = T, T-1, ..., 1`,
then scrub any remaining `MASK` to token `0` and return the sequence. -/
def generateMasked (probsOf : List ℕ → ℕ → List ℚ) (temp : ℚ)
    (maskID V L T : ℕ) (topK : ℤ) (rng : ℕ → ℚ) : Option (List ℕ) :=
  (((List.range T).map (fun k => T - k)).foldl
      (fun acc s => acc.bind (maskedStep probsOf temp maskID V L topK rng s))
      (some (MGenState.mk (List.replicate L maskID) 0))).map
    (fun st => scrubMask maskID st.xcur)

/-- One step `t` of `GenerateBetter` (scanning `t` from `T-1` down to `0`):
resolve every still-masked position (threading the mutable `Config.TopK`),
then, when `t > 0`, re-mask each just-resolved position with probability
`t/T`. -/
def betterStep (probsOf : List ℕ → ℕ → List ℚ) (temp : ℚ) (maskID L T : ℕ)
    (rng : ℕ → ℚ) (t : ℕ) (st : BGenState) : Option BGenState :=
  let snap := st.xcur
  let masked := maskedPositionsOf snap maskID L
  let resolved := masked.foldl (fun acc i =>
    acc.bind (fun st' =>
      (betterSelect (probsOf snap i) temp maskID st'.topK (rng st'.n)).map
        (fun c => BGenState.mk (st'.xcur.set i c.1) c.2.1
          (st'.n + (if c.2.2 then 1 else 0)))))
    (some st)
  resolved.map (fun st' =>
    if 0 < t then
      masked.foldl (fun acc i =>
        if rng acc.n < (t : ℚ) / (T : ℚ)
        then BGenState.mk (acc.xcur.set i maskID) acc.topK (acc.n + 1)
        else BGenState.mk acc.xcur acc.topK (acc.n + 1)) st'
    else st')

/-- `GenerateBetter`: start fully masked, run steps `t = T-1, ..., 0`, scrub
remaining `MASK` to `0`.  The result pairs the returned sequence with the
final value of the model's `Config.TopK` field. -/
def generateBetter (probsOf : List ℕ → ℕ → List ℚ) (temp : ℚ)
    (maskID L T : ℕ) (topK0 : ℤ) (rng : ℕ → ℚ) : Option (List ℕ × ℤ) :=
  (((List.range T).reverse).foldl
      (fun acc t => acc.bind (betterStep probsOf temp maskID L T rng t))
      (some (BGenState.mk (List.replicate L maskID) topK0 0))).map
    (fun st => (scrubMask maskID st.xcur, st.topK))

theorem scrubMask_no_mask {maskID : ℕ} (h : maskID ≠ 0) (xcur : List ℕ) :
    maskID ∉ scrubMask maskID xcur := by
  intro hmem
  obtain ⟨tok, _, he⟩ := List.mem_map.mp hmem
  by_cases ht : tok = maskID
  · rw [if_pos ht] at he
    exact h he.symm
  · rw [if_neg ht] at he
    exact ht he

/-- C5: whatever the model logits and whatever the random draws, any run of
`GenerateMasked` or `GenerateBetter` that returns a sequence returns one with
zero `MASK` tokens: the terminal scrub forces any position still equal to
`MASK` to token id `0` (`MASK` has id 1 ≠ 0 in every constructed
tokenizer). -/
theorem C5_no_mask_in_output (probsOf : List ℕ → ℕ → List ℚ) (temp : ℚ)
    (maskID V L T : ℕ) (topK : ℤ) (rng : ℕ → ℚ) (hm : maskID ≠ 0) :
    (∀ out, generateMasked probsOf temp maskID V L T topK rng = some out →
      maskID ∉ out) ∧
    (∀ out k', generateBetter probsOf temp maskID L T topK rng = some (out, k') →
      maskID ∉ out) := by
  constructor
  · intro out hout
    unfold generateMasked at hout
    obtain ⟨st, _, hst⟩ := Option.map_eq_some'.mp hout
    rw [← hst]
    exact scrubMask_no_mask hm st.xcur
  · intro out k' hout
    unfold generateBetter at hout
    obtain ⟨st, _, hst⟩ := Option.map_eq_some'.mp hout
    have hfst : out = scrubMask maskID st.xcur := by
      have h1 := congrArg Prod.fst hst
      simpa using h1.symm
    rw [hfst]
    exact scrubMask_no_mask hm st.xcur

theorem C5_no_mask_in_output_witness :
    (1 : ℕ) ∉ ([0] : List ℕ) ∧ (1 : ℕ) ∉ ([0, 0] : List ℕ) := by
  have h1 := C5_no_mask_in_output (fun _ _ => []) 1 1 2 1 0 1 (fun _ => 0)
    (by decide)
  have h2 := C5_no_mask_in_output (fun _ _ => []) 1 1 2 2 0 1 (fun _ => 0)
    (by decide)
  exact ⟨h1.1 [0] rfl, h2.2 [0, 0] 1 rfl⟩

theorem sortDesc_length (l : List (ℕ × ℚ)) : (sortDesc l).length = l.length :=
  (sortDesc_perm l).length_eq

theorem maskedCand_length (probs : List ℚ) (temp : ℚ) (maskID V : ℕ) :
    (maskedCand probs temp maskID V).length = V := by
  simp [maskedCand]

theorem betterZeroed_length (probs : List ℚ) (temp : ℚ) (maskID : ℕ) :
    (betterZeroed probs temp maskID).length = probs.length := by
  unfold betterZeroed betterScaled
  split <;> simp

theorem betterCand_length (probs : List ℚ) (temp : ℚ) (maskID : ℕ) :
    (betterCand probs temp maskID).length = probs.length := by
  simp [betterCand, betterNormed, betterZeroed_length]

theorem map_fst_reweight (kept : List (ℕ × ℚ)) (f : ℕ × ℚ → ℚ) :
    (kept.map (fun p => (p.1, f p))).map Prod.fst = kept.map Prod.fst := by
  rw [List.map_map]
  rfl

theorem betterClampK_bounds (topK : ℤ) (len : ℕ) (hlen : 0 < len) :
    1 ≤ betterClampK topK len ∧ betterClampK topK len ≤ (len : ℤ) := by
  unfold betterClampK
  split_ifs <;> omega

theorem betterClampK_eq_self {topK : ℤ} {len : ℕ} (h1 : 1 ≤ topK)
    (h2 : topK ≤ (len : ℤ)) : betterClampK topK len = topK := by
  unfold betterClampK
  split_ifs <;> omega

theorem maskedSelect_in_range (probs : List ℚ) (temp : ℚ) (maskID : ℕ)
    (topK : ℤ) (V : ℕ) (r : ℚ) (h1 : 1 ≤ topK) (h2 : topK ≤ (V : ℤ)) :
    ∃ c, maskedSelect probs temp maskID topK V r = some c ∧
      c ∈ ((sortDesc (maskedCand probs temp maskID V)).take topK.toNat).map
        Prod.fst := by
  unfold maskedSelect
  have hno : ¬(topK < 0 ∨ (V : ℤ) < topK) := by push_neg; omega
  rw [if_neg hno]
  have hslen : (sortDesc (maskedCand probs temp maskID V)).length = V := by
    rw [sortDesc_length, maskedCand_length]
  cases hk : (sortDesc (maskedCand probs temp maskID V)).take topK.toNat with
  | nil =>
    exfalso
    have hl := congrArg List.length hk
    rw [List.length_take, hslen] at hl
    simp only [List.length_nil] at hl
    omega
  | cons first rest =>
    simp only [hk]
    refine ⟨_, rfl, ?_⟩
    have hmem := invCDF_mem
      (if ((first :: rest).map Prod.snd).sum = 0
        then (first :: rest).map (fun p => (p.1, 1 / (topK : ℚ)))
        else (first :: rest).map (fun p => (p.1, p.2 / ((first :: rest).map Prod.snd).sum)))
      r 0 first.1
    have hfst : (if ((first :: rest).map Prod.snd).sum = 0
        then (first :: rest).map (fun p => (p.1, 1 / (topK : ℚ)))
        else (first :: rest).map
          (fun p => (p.1, p.2 / ((first :: rest).map Prod.snd).sum))).map Prod.fst
        = (first :: rest).map Prod.fst := by
      split <;> exact map_fst_reweight _ _
    rcases hmem with he | hm
    · rw [he]
      exact List.mem_map.mpr ⟨first, List.mem_cons_self _ _, rfl⟩
    · rw [hfst] at hm
      exact hm

theorem foldl_bind_isSome {α β : Type} {l : List β}
    (f : α → β → Option α) (hf : ∀ a b, (f a b).isSome = true) :
    ∀ a : α, (l.foldl (fun acc i => acc.bind (fun x => f x i)) (some a)).isSome
      = true := by
  induction l with
  | nil => intro a; rfl
  | cons b rest ih =>
    intro a
    rw [List.foldl_cons]
    obtain ⟨a', ha'⟩ := Option.isSome_iff_exists.mp (hf a b)
    have hb : (some a).bind (fun x => f x b) = f a b := rfl
    rw [hb, ha']
    exact ih a'

theorem foldl_bind_none {α β : Type} (f : α → β → Option α) (l : List β) :
    (l.foldl (fun acc i => acc.bind (fun x => f x i)) none) = none := by
  induction l with
  | nil => rfl
  | cons b rest ih =>
    rw [List.foldl_cons]
    exact ih

theorem foldl_bind_preserve {α β : Type} {l : List β} (P : α → Prop)
    (f : α → β → Option α)
    (hf : ∀ a b, P a → ∀ a', f a b = some a' → P a') :
    ∀ a : α, P a → ∀ a',
      l.foldl (fun acc i => acc.bind (fun x => f x i)) (some a) = some a' →
      P a' := by
  induction l with
  | nil =>
    intro a ha a' h
    cases h
    exact ha
  | cons b rest ih =>
    intro a ha a' h
    rw [List.foldl_cons] at h
    have hb : (some a).bind (fun x => f x b) = f a b := rfl
    rw [hb] at h
    cases hfa : f a b with
    | none =>
      rw [hfa, foldl_bind_none] at h
      cases h
    | some a2 =>
      rw [hfa] at h
      exact ih a2 (hf a b ha a2 hfa) a' h

theorem foldl_preserve {α β : Type} (P : α → Prop) (f : α → β → α)
    (hf : ∀ a b, P a → P (f a b)) :
    ∀ (l : List β) (a : α), P a → P (l.foldl f a) := by
  intro l
  induction l with
  | nil => intro a ha; exact ha
  | cons b rest ih =>
    intro a ha
    rw [List.foldl_cons]
    exact ih _ (hf a b ha)

theorem maskedSelect_isSome {probs : List ℚ} {temp : ℚ} {maskID : ℕ}
    {topK : ℤ} {V : ℕ} (r : ℚ) (h1 : 1 ≤ topK) (h2 : topK ≤ (V : ℤ)) :
    (maskedSelect probs temp maskID topK V r).isSome = true := by
  obtain ⟨c, hc, _⟩ := maskedSelect_in_range probs temp maskID topK V r h1 h2
  rw [hc]
  rfl

theorem maskedStep_isSome {probsOf : List ℕ → ℕ → List ℚ} {temp : ℚ}
    {maskID V L : ℕ} {topK : ℤ} {rng : ℕ → ℚ} {s : ℕ} (st : MGenState)
    (h1 : 1 ≤ topK) (h2 : topK ≤ (V : ℤ)) :
    (maskedStep probsOf temp maskID V L topK rng s st).isSome = true := by
  simp only [maskedStep]
  rw [Option.isSome_map']
  apply foldl_bind_isSome
  intro a b
  rw [Option.isSome_map']
  exact maskedSelect_isSome (rng a.n) h1 h2

theorem betterSelect_spec (probs : List ℚ) (temp : ℚ) (maskID : ℕ)
    (topK : ℤ) (r : ℚ) (hlen : 0 < probs.length) :
    ∃ c k' used, betterSelect probs temp maskID topK r = some (c, k', used) ∧
      (used = false → c = 0 ∧ k' = topK) ∧
      (used = true →
        k' = betterClampK topK probs.length ∧ 1 ≤ k' ∧
        k' ≤ (probs.length : ℤ) ∧
        c ∈ ((sortDesc (betterCand probs temp maskID)).take k'.toNat).map
          Prod.fst) := by
  unfold betterSelect
  split
  · exact ⟨0, topK, false, rfl, fun _ => ⟨rfl, rfl⟩, fun h => by simp at h⟩
  · have hslen : (sortDesc (betterCand probs temp maskID)).length
        = probs.length := by
      rw [sortDesc_length, betterCand_length]
    dsimp only
    rw [hslen]
    have hb := betterClampK_bounds topK probs.length hlen
    cases hk : (sortDesc (betterCand probs temp maskID)).take
        (betterClampK topK probs.length).toNat with
    | nil =>
      exfalso
      have hl := congrArg List.length hk
      rw [List.length_take, hslen] at hl
      simp only [List.length_nil] at hl
      omega
    | cons first rest =>
      simp only [hk]
      refine ⟨_, _, true, rfl, fun h => by simp at h, fun _ => ?_⟩
      refine ⟨rfl, hb.1, hb.2, ?_⟩
      rcases invCDF_mem (first :: rest) r 0 first.1 with he | hm
      · rw [he, hk]
        exact List.mem_map.mpr ⟨first, List.mem_cons_self _ _, rfl⟩
      · rw [hk]
        exact hm

theorem betterSelect_isSome {probs : List ℚ} {temp : ℚ} {maskID : ℕ}
    {topK : ℤ} (r : ℚ) (hlen : 0 < probs.length) :
    (betterSelect probs temp maskID topK r).isSome = true := by
  obtain ⟨c, k', used, hc, _, _⟩ := betterSelect_spec probs temp maskID topK r hlen
  rw [hc]
  rfl

theorem betterStep_isSome {probsOf : List ℕ → ℕ → List ℚ} {temp : ℚ}
    {maskID L T : ℕ} {rng : ℕ → ℚ} {t : ℕ} (st : BGenState)
    (hlen : ∀ s i, 0 < (probsOf s i).length) :
    (betterStep probsOf temp maskID L T rng t st).isSome = true := by
  simp only [betterStep]
  rw [Option.isSome_map']
  apply foldl_bind_isSome
  intro a b
  rw [Option.isSome_map']
  exact betterSelect_isSome (rng a.n) (hlen st.xcur b)

theorem generateMasked_total {probsOf : List ℕ → ℕ → List ℚ} {temp : ℚ}
    {maskID V L T : ℕ} {topK : ℤ} {rng : ℕ → ℚ}
    (h1 : 1 ≤ topK) (h2 : topK ≤ (V : ℤ)) :
    (generateMasked probsOf temp maskID V L T topK rng).isSome = true := by
  unfold generateMasked
  rw [Option.isSome_map']
  apply foldl_bind_isSome
  intro a b
  exact maskedStep_isSome a h1 h2

theorem generateBetter_total {probsOf : List ℕ → ℕ → List ℚ} {temp : ℚ}
    {maskID L T : ℕ} {topK : ℤ} {rng : ℕ → ℚ}
    (hlen : ∀ s i, 0 < (probsOf s i).length) :
    (generateBetter probsOf temp maskID L T topK rng).isSome = true := by
  unfold generateBetter
  rw [Option.isSome_map']
  apply foldl_bind_isSome
  intro a b
  exact betterStep_isSome a hlen

theorem betterSelect_topK_preserved {probs : List ℚ} {temp : ℚ} {maskID : ℕ}
    {topK : ℤ} {r : ℚ} {c : ℕ} {k' : ℤ} {used : Bool}
    (h : betterSelect probs temp maskID topK r = some (c, k', used))
    (h1 : 1 ≤ topK) (h2 : topK ≤ (probs.length : ℤ)) : k' = topK := by
  unfold betterSelect at h
  split at h
  · cases h
    rfl
  · dsimp only at h
    have hslen : (sortDesc (betterCand probs temp maskID)).length
        = probs.length := by
      rw [sortDesc_length, betterCand_length]
    rw [hslen] at h
    cases hk : (sortDesc (betterCand probs temp maskID)).take
        (betterClampK topK probs.length).toNat with
    | nil =>
      rw [hk] at h
      cases h
    | cons first rest =>
      rw [hk] at h
      cases h
      exact betterClampK_eq_self h1 h2

theorem betterStep_topK_preserved {probsOf : List ℕ → ℕ → List ℚ} {temp : ℚ}
    {maskID L T V : ℕ} {rng : ℕ → ℚ} {t : ℕ} {topK : ℤ}
    (hlen : ∀ s i, (probsOf s i).length = V)
    (h1 : 1 ≤ topK) (h2 : topK ≤ (V : ℤ)) :
    ∀ st st', st.topK = topK →
      betterStep probsOf temp maskID L T rng t st = some st' →
      st'.topK = topK := by
  intro st st' hst h
  simp only [betterStep] at h
  obtain ⟨st2, hst2, hmap⟩ := Option.map_eq_some'.mp h
  have hres : st2.topK = topK := by
    refine foldl_bind_preserve (fun x : BGenState => x.topK = topK)
      (fun x i => (betterSelect (probsOf st.xcur i) temp maskID x.topK
          (rng x.n)).map
        (fun c => BGenState.mk (x.xcur.set i c.1) c.2.1
          (x.n + (if c.2.2 then 1 else 0)))) ?_ st hst st2 hst2
    intro a b ha a' ha'
    obtain ⟨cc, hcc, hmk⟩ := Option.map_eq_some'.mp ha'
    rw [ha] at hcc
    rcases cc with ⟨c, k2, used⟩
    have hk2 : k2 = topK := by
      apply betterSelect_topK_preserved hcc h1
      rw [hlen st.xcur b]
      exact h2
    rw [← hmk]
    exact hk2
  rw [← hmap]
  split
  · refine foldl_preserve (fun x : BGenState => x.topK = topK) _ ?_ _ st2 hres
    intro a b ha
    split <;> exact ha
  · exact hres

theorem generateBetter_topK_frame {probsOf : List ℕ → ℕ → List ℚ} {temp : ℚ}
    {maskID L T V : ℕ} {topK : ℤ} {rng : ℕ → ℚ}
    (hlen : ∀ s i, (probsOf s i).length = V)
    (h1 : 1 ≤ topK) (h2 : topK ≤ (V : ℤ)) :
    ∀ out k', generateBetter probsOf temp maskID L T topK rng = some (out, k') →
      k' = topK := by
  intro out k' h
  unfold generateBetter at h
  obtain ⟨st, hst, hmap⟩ := Option.map_eq_some'.mp h
  have hp : st.topK = topK :=
    foldl_bind_preserve (fun x : BGenState => x.topK = topK)
      (fun x u => betterStep probsOf temp maskID L T rng u x)
      (fun a b ha a' ha' => betterStep_topK_preserved hlen h1 h2 a a' ha ha')
      (BGenState.mk (List.replicate L maskID) topK 0) rfl st hst
  have hsnd := congrArg Prod.snd hmap
  simp only at hsnd
  rw [← hsnd]
  exact hp

/-- C4 (amended): `GenerateBetter` clamps `TopK` into `[1, VocabSize]` and
always completes; `GenerateMasked` does NOT clamp — with `TopK` outside
`[1, VocabSize]` its slice/index operations fail (see
`C4_topk_clamping_counterexample`) — but completes whenever
`1 ≤ TopK ≤ VocabSize`.  In both samplers the token drawn on the sampling
path is among the kept `take k` of the probability-descending candidate list
(the `MASK` entry's score having been zeroed), and every kept candidate's
score is at least every dropped candidate's. -/
theorem C4_topk_clamping (probsOf : List ℕ → ℕ → List ℚ) (probs : List ℚ)
    (temp : ℚ) (maskID V L T : ℕ) (topK : ℤ) (rng : ℕ → ℚ) (r : ℚ) :
    (1 ≤ topK → topK ≤ (V : ℤ) →
      (∃ c, maskedSelect probs temp maskID topK V r = some c ∧
        c ∈ ((sortDesc (maskedCand probs temp maskID V)).take topK.toNat).map
          Prod.fst) ∧
      (generateMasked probsOf temp maskID V L T topK rng).isSome = true) ∧
    (∀ p ∈ (sortDesc (maskedCand probs temp maskID V)).take topK.toNat,
      ∀ q ∈ (sortDesc (maskedCand probs temp maskID V)).drop topK.toNat,
      q.2 ≤ p.2) ∧
    (0 < probs.length →
      ∃ c k' used, betterSelect probs temp maskID topK r = some (c, k', used) ∧
        (used = false → c = 0 ∧ k' = topK) ∧
        (used = true →
          k' = betterClampK topK probs.length ∧ 1 ≤ k' ∧
          k' ≤ (probs.length : ℤ) ∧
          c ∈ ((sortDesc (betterCand probs temp maskID)).take k'.toNat).map
            Prod.fst)) ∧
    ((∀ s i, 0 < (probsOf s i).length) →
      (generateBetter probsOf temp maskID L T topK rng).isSome = true) ∧
    (∀ k : ℕ, ∀ p ∈ (sortDesc (betterCand probs temp maskID)).take k,
      ∀ q ∈ (sortDesc (betterCand probs temp maskID)).drop k, q.2 ≤ p.2) :=
  ⟨fun h1 h2 => ⟨maskedSelect_in_range probs temp maskID topK V r h1 h2, generateMasked_total h1 h2⟩,
    sortDesc_take_ge_drop _ _,
    fun hl => betterSelect_spec probs temp maskID topK r hl,
    fun hl => generateBetter_total hl,
    fun k => sortDesc_take_ge_drop _ k⟩

/-- C4 counterexample: `GenerateMasked` truncates with the UNclamped
`Config.TopK`.  With `VocabSize = 6` the run fails both for `TopK = 7`
(slice `topK[:d.Config.TopK]` out of range) and for `TopK = 0` (index
`topK[0]` on the empty truncation), refuting the claim that both masked
generators clamp `k` into `[1, VocabSize]` and complete without failure. -/
theorem C4_topk_clamping_counterexample :
    generateMasked (fun _ _ => []) 1 1 6 1 1 7 (fun _ => 0) = none ∧
    generateMasked (fun _ _ => []) 1 1 6 1 1 0 (fun _ => 0) = none :=
  ⟨rfl, rfl⟩

theorem C4_topk_clamping_witness :
    (maskedSelect [1/2, 1/2, 0, 0, 0, 0] 1 1 2 6 0).isSome = true ∧
    (generateMasked (fun _ _ => []) 1 1 6 1 0 2 (fun _ => 0)).isSome = true ∧
    (betterSelect [1/2, 1/2] 1 1 0 0).isSome = true ∧
    (generateBetter (fun _ _ => [1/2, 1/2]) 1 1 1 0 0 (fun _ => 0)).isSome
      = true := by
  have hm := C4_topk_clamping (fun _ _ => []) [1/2, 1/2, 0, 0, 0, 0]
    1 1 6 1 0 2 (fun _ => 0) 0
  have hb := C4_topk_clamping (fun _ _ => [1/2, 1/2]) [1/2, 1/2]
    1 1 6 1 0 0 (fun _ => 0) 0
  have hm1 := hm.1 (by norm_num) (by norm_num)
  obtain ⟨c, hc, _⟩ := hm1.1
  obtain ⟨c2, k2, u2, hc2, _, _⟩ := hb.2.2.1 (by norm_num)
  refine ⟨by rw [hc]; rfl, hm1.2, by rw [hc2]; rfl, ?_⟩
  exact hb.2.2.2.1 (fun _ _ => by norm_num)

/-- C6 (amended): only `GenerateBetter` implements the deterministic token-0
fallback: when the mass remaining after zeroing the `MASK` entry is below
`1e-12`, the position resolves to token `0` with no stochastic draw (and the
`TopK` field untouched).  `GenerateMasked`, when the truncated top-k mass is
exactly `0`, instead substitutes the uniform distribution `1/TopK` over the
kept candidates and still draws from it (see
`C6_degenerate_mass_counterexample`). -/
theorem C6_degenerate_mass (probs : List ℚ) (temp : ℚ) (maskID : ℕ)
    (topK : ℤ) (V : ℕ) (r : ℚ) :
    ((betterZeroed probs temp maskID).sum < 1 / 10 ^ 12 →
      betterSelect probs temp maskID topK r = some (0, topK, false)) ∧
    (¬(topK < 0 ∨ (V : ℤ) < topK) →
      ∀ first rest,
        (sortDesc (maskedCand probs temp maskID V)).take topK.toNat
          = first :: rest →
        ((first :: rest).map Prod.snd).sum = 0 →
        maskedSelect probs temp maskID topK V r
          = some (invCDF
              ((first :: rest).map (fun p => (p.1, 1 / (topK : ℚ)))) r 0
              first.1)) := by
  constructor
  · intro h
    unfold betterSelect
    rw [if_pos h]
  · intro hno first rest hk hsum
    unfold maskedSelect
    rw [if_neg hno, hk]
    dsimp only
    rw [if_pos hsum]

/-- C6 counterexample: in `GenerateMasked`, with every probability zero (a
possible float-softmax output), `TopK = 2`, `VocabSize = 6`: the degenerate
position does NOT deterministically resolve to token `0` — the outcome
depends on the draw (`9/10` yields token `1`, which is the `MASK` id itself;
`1/4` yields token `0`). -/
theorem C6_degenerate_mass_counterexample :
    maskedSelect [0, 0, 0, 0, 0, 0] 1 1 2 6 (9/10) = some 1 ∧
    maskedSelect [0, 0, 0, 0, 0, 0] 1 1 2 6 (1/4) = some 0 ∧
    (some 1 : Option ℕ) ≠ some 0 := by
  have hc : maskedCand [0, 0, 0, 0, 0, 0] 1 1 6
      = [(0, 0), (1, 0), (2, 0), (3, 0), (4, 0), (5, 0)] := by
    simp [maskedCand, List.range_succ]
  have hs : sortDesc (maskedCand [0, 0, 0, 0, 0, 0] 1 1 6)
      = [(0, 0), (1, 0), (2, 0), (3, 0), (4, 0), (5, 0)] := by
    rw [hc]; simp [sortDesc, insertDesc]
  have ht : List.take (Int.toNat 2)
      [((0 : ℕ), (0 : ℚ)), (1, 0), (2, 0), (3, 0), (4, 0), (5, 0)]
      = [(0, 0), (1, 0)] := rfl
  refine ⟨?_, ?_, by simp⟩
  · unfold maskedSelect
    rw [if_neg (by norm_num), hs, ht]
    norm_num [invCDF]
  · unfold maskedSelect
    rw [if_neg (by norm_num), hs, ht]
    norm_num [invCDF]

theorem C6_degenerate_mass_witness :
    betterSelect [0, 0] 1 1 5 0 = some (0, 5, false) ∧
    maskedSelect [0, 0, 0, 0, 0, 0] 1 1 2 6 (9/10)
      = some (invCDF
          ([((0 : ℕ), (0 : ℚ)), (1, 0)].map (fun p => (p.1, 1 / ((2 : ℤ) : ℚ))))
          (9/10) 0 (0, (0 : ℚ)).1) := by
  have h := C6_degenerate_mass [0, 0] 1 1 5 6 0
  have h2 := C6_degenerate_mass [0, 0, 0, 0, 0, 0] 1 1 2 6 (9/10)
  refine ⟨h.1 (by norm_num [betterZeroed, betterScaled]), ?_⟩
  have hc : maskedCand [0, 0, 0, 0, 0, 0] 1 1 6
      = [(0, 0), (1, 0), (2, 0), (3, 0), (4, 0), (5, 0)] := by
    simp [maskedCand, List.range_succ]
  have hs : (sortDesc (maskedCand [0, 0, 0, 0, 0, 0] 1 1 6)).take
      (Int.toNat 2) = [(0, 0), (1, 0)] := by
    rw [hc]
    have : sortDesc [((0 : ℕ), (0 : ℚ)), (1, 0), (2, 0), (3, 0), (4, 0), (5, 0)]
        = [(0, 0), (1, 0), (2, 0), (3, 0), (4, 0), (5, 0)] := by
      simp [sortDesc, insertDesc]
    rw [this]
    rfl
  exact h2.2 (by norm_num) (0, 0) [(1, 0)] hs (by norm_num)

/-- C8 (amended): the noisers, trainers and `GenerateMasked` never write any
`Config` field or `MaskFraction` entry (their embeddings are pure functions
of the configuration), but `GenerateBetter` persistently writes the clamped
value back into `Config.TopK` whenever `TopK` is outside `[1, VocabSize]`
(see `C8_config_frame_counterexample`).  When `1 ≤ TopK ≤ VocabSize` — the
network rows having `VocabSize` entries — every completed `GenerateBetter`
run leaves `Config.TopK` unchanged as well. -/
theorem C8_config_frame (probsOf : List ℕ → ℕ → List ℚ) (temp : ℚ)
    (maskID L T V : ℕ) (topK : ℤ) (rng : ℕ → ℚ)
    (hlen : ∀ s i, (probsOf s i).length = V)
    (h1 : 1 ≤ topK) (h2 : topK ≤ (V : ℤ)) :
    ∀ out k', generateBetter probsOf temp maskID L T topK rng = some (out, k') →
      k' = topK :=
  generateBetter_topK_frame hlen h1 h2

/-- C8 counterexample: a completed `GenerateBetter` run with the out-of-range
configuration `TopK = 0` terminates with `Config.TopK = 1`: the clamp at
lines 707–712 of `diffusion.go` assigns to `d.Config.TopK` through the
pointer receiver, mutating the model's configuration. -/
theorem C8_config_frame_counterexample :
    generateBetter (fun _ _ => [1, 0]) 1 1 1 1 0 (fun _ => 0)
      = some ([0], 1) ∧ (1 : ℤ) ≠ 0 := by
  constructor
  · norm_num [generateBetter, betterStep, betterSelect, betterZeroed,
      betterScaled, betterNormed, betterCand, betterClampK, sortDesc,
      insertDesc, invCDF, maskedPositionsOf, scrubMask, List.range_succ]
  · decide

theorem C8_config_frame_witness :
    generateBetter (fun _ _ => [1/2, 1/2]) 1 1 1 0 1 (fun _ => 0)
      = some ([0], 1) ∧ (1 : ℤ) = 1 := by
  have h := C8_config_frame (fun _ _ => [1/2, 1/2]) 1 1 1 0 2 1 (fun _ => 0)
    (fun _ _ => rfl) (by norm_num) (by norm_num)
  exact ⟨rfl, h [0] 1 rfl⟩

theorem insertDesc_map_scale {c : ℚ} (hc : 0 < c) (x : ℕ × ℚ)
    (l : List (ℕ × ℚ)) :
    insertDesc (x.1, x.2 / c) (l.map (fun p => (p.1, p.2 / c)))
      = (insertDesc x l).map (fun p => (p.1, p.2 / c)) := by
  induction l with
  | nil => rfl
  | cons y ys ih =>
    simp only [List.map_cons, insertDesc]
    by_cases h : y.2 ≤ x.2
    · rw [if_pos h, if_pos ((div_le_div_iff_of_pos_right hc).mpr h)]
      simp
    · rw [if_neg h, if_neg (fun hle => h ((div_le_div_iff_of_pos_right hc).mp hle))]
      rw [List.map_cons, ih]

theorem sortDesc_map_scale {c : ℚ} (hc : 0 < c) (l : List (ℕ × ℚ)) :
    sortDesc (l.map (fun p => (p.1, p.2 / c)))
      = (sortDesc l).map (fun p => (p.1, p.2 / c)) := by
  induction l with
  | nil => rfl
  | cons x xs ih =>
    simp only [List.map_cons, sortDesc, List.foldr_cons]
    rw [show List.foldr insertDesc [] (xs.map (fun p => (p.1, p.2 / c)))
        = sortDesc (xs.map (fun p => (p.1, p.2 / c))) from rfl,
      ih, insertDesc_map_scale hc]
    rfl

theorem sum_map_div (l : List ℚ) (c : ℚ) :
    (l.map (fun x => x / c)).sum = l.sum / c := by
  induction l with
  | nil => simp
  | cons x xs ih => simp [ih, add_div]

theorem maskedCand_temp_scale (probs : List ℚ) {t1 : ℚ} (t2 : ℚ)
    (h1 : t1 ≠ 0) (maskID V : ℕ) :
    maskedCand probs t2 maskID V
      = (maskedCand probs t1 maskID V).map
          (fun p => (p.1, p.2 / (t2 / t1))) := by
  unfold maskedCand
  rw [List.map_map]
  apply List.map_congr_left
  intro j _
  simp only [Function.comp]
  by_cases hj : j = maskID
  · simp [hj]
  · rw [if_neg hj, if_neg hj]
    rw [div_div_div_cancel_right₀ h1]

theorem maskedSelect_temp_invariant (probs : List ℚ) {t1 t2 : ℚ}
    (h1 : 0 < t1) (h2 : 0 < t2) (maskID : ℕ) (topK : ℤ) (V : ℕ) (r : ℚ) :
    maskedSelect probs t1 maskID topK V r
      = maskedSelect probs t2 maskID topK V r := by
  have hc : 0 < t2 / t1 := div_pos h2 h1
  have hcand := maskedCand_temp_scale probs t2 (ne_of_gt h1) maskID V
  unfold maskedSelect
  dsimp only
  rw [hcand, sortDesc_map_scale hc, ← List.map_take]
  by_cases hg : topK < 0 ∨ (V : ℤ) < topK
  · rw [if_pos hg, if_pos hg]
  · rw [if_neg hg, if_neg hg]
    cases hk : (sortDesc (maskedCand probs t1 maskID V)).take topK.toNat with
    | nil => rfl
    | cons first rest =>
      simp only [List.map_cons, List.map_map]
      have hcomp : (Prod.snd ∘ fun p : ℕ × ℚ => (p.1, p.2 / (t2 / t1)))
          = (fun p : ℕ × ℚ => p.2 / (t2 / t1)) := rfl
      have hmm : (rest.map (Prod.snd ∘ fun p : ℕ × ℚ => (p.1, p.2 / (t2 / t1))))
          = (rest.map Prod.snd).map (fun x => x / (t2 / t1)) := by
        rw [hcomp, List.map_map]
        rfl
      have hsum : (first.2 / (t2 / t1)
            :: rest.map (Prod.snd ∘ fun p : ℕ × ℚ => (p.1, p.2 / (t2 / t1)))).sum
          = (first.2 :: rest.map Prod.snd).sum / (t2 / t1) := by
        rw [hmm, List.sum_cons, List.sum_cons, sum_map_div, add_div]
      rw [hsum]
      by_cases hz : (first.2 :: rest.map Prod.snd).sum = 0
      · rw [hz, zero_div, if_pos rfl, if_pos rfl]
        have hun : (rest.map ((fun p : ℕ × ℚ => (p.1, 1 / (topK : ℚ)))
              ∘ fun p : ℕ × ℚ => (p.1, p.2 / (t2 / t1))))
            = rest.map (fun p : ℕ × ℚ => (p.1, 1 / (topK : ℚ))) := rfl
        rw [hun]
      · rw [if_neg hz, if_neg (by
            rw [div_eq_zero_iff]
            push_neg
            exact ⟨hz, ne_of_gt hc⟩)]
        have harg : ∀ p : ℕ × ℚ,
            p.2 / (t2 / t1) / ((first.2 :: rest.map Prod.snd).sum / (t2 / t1))
              = p.2 / (first.2 :: rest.map Prod.snd).sum := by
          intro p
          rw [div_div_div_cancel_right₀ (ne_of_gt hc)]
        have hrest : (rest.map ((fun p : ℕ × ℚ =>
              (p.1, p.2 / ((first.2 :: rest.map Prod.snd).sum / (t2 / t1))))
              ∘ fun p : ℕ × ℚ => (p.1, p.2 / (t2 / t1))))
            = rest.map (fun p : ℕ × ℚ =>
              (p.1, p.2 / (first.2 :: rest.map Prod.snd).sum)) := by
          apply List.map_congr_left
          intro p _
          simp only [Function.comp]
          rw [harg p]
        rw [hrest, harg first]

theorem maskedStep_temp_invariant {probsOf : List ℕ → ℕ → List ℚ}
    {t1 t2 : ℚ} (h1 : 0 < t1) (h2 : 0 < t2) (maskID V L : ℕ) (topK : ℤ)
    (rng : ℕ → ℚ) (s : ℕ) (st : MGenState) :
    maskedStep probsOf t1 maskID V L topK rng s st
      = maskedStep probsOf t2 maskID V L topK rng s st := by
  simp only [maskedStep]
  refine congrArg _ ?_
  apply List.foldl_ext
  intro acc i _
  cases acc with
  | none => rfl
  | some st' =>
    show (maskedSelect (probsOf st.xcur i) t1 maskID topK V (rng st'.n)).map _
      = (maskedSelect (probsOf st.xcur i) t2 maskID topK V (rng st'.n)).map _
    rw [maskedSelect_temp_invariant _ h1 h2]

theorem generateMasked_temp_invariant {probsOf : List ℕ → ℕ → List ℚ}
    {t1 t2 : ℚ} (h1 : 0 < t1) (h2 : 0 < t2) (maskID V L T : ℕ) (topK : ℤ)
    (rng : ℕ → ℚ) :
    generateMasked probsOf t1 maskID V L T topK rng
      = generateMasked probsOf t2 maskID V L T topK rng := by
  unfold generateMasked
  refine congrArg _ ?_
  apply List.foldl_ext
  intro acc s _
  cases acc with
  | none => rfl
  | some st =>
    show maskedStep probsOf t1 maskID V L topK rng s st
      = maskedStep probsOf t2 maskID V L topK rng s st
    exact maskedStep_temp_invariant h1 h2 maskID V L topK rng s st

/-- C10 (amended): `GenerateMasked` is temperature-invariant — for any two
positive temperatures, the same logits oracle and the same draw stream
produce identical runs, because the division by temperature rescales every
candidate score uniformly, preserving both the descending sort and the final
renormalised sampling distribution, and the `sum == 0` degenerate test is
scale-invariant over exact numbers.  `GenerateBetter` is NOT temperature
invariant: its degenerate-mass test compares the temperature-scaled mass
against the absolute threshold `1e-12`
(see `C10_temperature_counterexample`). -/
theorem C10_temperature_no_effect (probsOf : List ℕ → ℕ → List ℚ)
    (probs : List ℚ) (t1 t2 : ℚ) (h1 : 0 < t1) (h2 : 0 < t2)
    (maskID V L T : ℕ) (topK : ℤ) (rng : ℕ → ℚ) (r : ℚ) :
    maskedSelect probs t1 maskID topK V r
      = maskedSelect probs t2 maskID topK V r ∧
    generateMasked probsOf t1 maskID V L T topK rng
      = generateMasked probsOf t2 maskID V L T topK rng :=
  ⟨maskedSelect_temp_invariant probs h1 h2 maskID topK V r,
    generateMasked_temp_invariant h1 h2 maskID V L T topK rng⟩

/-- C10 counterexample: two `GenerateBetter` runs from the same state, the
same logits (post-softmax row `[0, 0, 1e-9]`) and the same draws, with
temperatures `1` and `10000` (both positive): at temperature `1` the
remaining mass `1e-9` clears the `1e-12` threshold and the position samples
token `2`; at temperature `10000` the scaled mass `1e-13` falls below the
threshold and the position deterministically becomes token `0`. -/
theorem C10_temperature_counterexample :
    (0 : ℚ) < 1 ∧ (0 : ℚ) < 10000 ∧
    generateBetter (fun _ _ => [0, 0, 1/1000000000]) 1 1 1 1 1 (fun _ => 0)
      = some ([2], 1) ∧
    generateBetter (fun _ _ => [0, 0, 1/1000000000]) 10000 1 1 1 1 (fun _ => 0)
      = some ([0], 1) ∧
    ([2] : List ℕ) ≠ [0] := by
  refine ⟨by norm_num, by norm_num, ?_, ?_, by decide⟩
  · norm_num [generateBetter, betterStep, betterSelect, betterZeroed,
      betterScaled, betterNormed, betterCand, betterClampK, sortDesc,
      insertDesc, invCDF, maskedPositionsOf, scrubMask, List.range_succ]
  · norm_num [generateBetter, betterStep, betterSelect, betterZeroed,
      betterScaled, betterNormed, betterCand, betterClampK, sortDesc,
      insertDesc, invCDF, maskedPositionsOf, scrubMask, List.range_succ]

theorem C10_temperature_no_effect_witness :
    maskedSelect [1/2, 1/2] (1/2) 1 1 2 0 = maskedSelect [1/2, 1/2] 3 1 1 2 0 ∧
    generateMasked (fun _ _ => [1/2, 1/2]) (1/2) 1 2 1 1 1 (fun _ => 0)
      = generateMasked (fun _ _ => [1/2, 1/2]) 3 1 2 1 1 1 (fun _ => 0) := by
  have h := C10_temperature_no_effect (fun _ _ => [1/2, 1/2]) [1/2, 1/2]
    (1/2) 3 (by norm_num) (by norm_num) 1 2 1 1 1 (fun _ => 0) 0
  exact h

/-- Strings are modelled as lists of characters. -/
abbrev Str := List Char

/-- Whitespace as recognised by `strings.Fields` (the ASCII subset). -/
def isSpaceChar (c : Char) : Bool :=
  c == ' ' || c == '\t' || c == '\n' || c == '\r'

/-- `strings.ToLower` on one character (the ASCII case). -/
def toLowerChar (c : Char) : Char :=
  if 'A' ≤ c ∧ c ≤ 'Z' then Char.ofNat (c.toNat + 32) else c

/-- `strings.ToLower`. -/
def toLowerStr (s : Str) : Str := s.map toLowerChar

/-- `strings.Fields`: split around maximal runs of whitespace, producing no
empty words. -/
def fields (s : Str) : List Str :=
  match s with
  | [] => []
  | c :: rest =>
    if isSpaceChar c then fields rest
    else (c :: rest.takeWhile (fun d => !isSpaceChar d))
      :: fields (rest.dropWhile (fun d => !isSpaceChar d))
termination_by s.length
decreasing_by
  · simp only [List.length_cons]
    omega
  · simp only [List.length_cons]
    have h : (rest.dropWhile (fun d => !isSpaceChar d)).length ≤ rest.length :=
      (List.dropWhile_sublist _).length_le
    omega

/-- `CustomTokenizer`: the Go maps are modelled as association lists (first
match wins, like a map lookup; keys are inserted at most once). -/
structure Tokenizer where
  vocab : List (Str × ℕ)
  reverseVocab : List (ℕ × Str)
  specialTokens : List ℕ
  vocabSize : ℕ

/-- The inner body of `NewCustomTokenizer`'s word loop: a new word gets the
next id in both maps, a known word changes nothing. -/
def addWord (st : List (Str × ℕ) × List (ℕ × Str) × ℕ) (w : Str) :
    List (Str × ℕ) × List (ℕ × Str) × ℕ :=
  match st.1.lookup w with
  | some _ => st
  | none => (st.1 ++ [(w, st.2.2)], st.2.1 ++ [(st.2.2, w)], st.2.2 + 1)

/-- `NewCustomTokenizer`: the four special tokens get ids 0–3, then every
new word of the lower-cased, whitespace-split corpus gets the next id. -/
def newCustomTokenizer (sentences : List Str) : Tokenizer :=
  let vocab0 : List (Str × ℕ) :=
    [("[PAD]".toList, 0), ("[MASK]".toList, 1),
     ("[CLS]".toList, 2), ("[SEP]".toList, 3)]
  let rev0 : List (ℕ × Str) :=
    [(0, "[PAD]".toList), (1, "[MASK]".toList),
     (2, "[CLS]".toList), (3, "[SEP]".toList)]
  let final := sentences.foldl
    (fun st s => (fields (toLowerStr s)).foldl addWord st) (vocab0, rev0, 4)
  { vocab := final.1, reverseVocab := final.2.1,
    specialTokens := [0, 1, 2, 3], vocabSize := final.2.2 }

/-- `Encode`: lower-case, split into fields, map each word to its vocabulary
id, unknown words to the `[PAD]` id. -/
def encode (t : Tokenizer) (text : Str) : List ℕ :=
  (fields (toLowerStr text)).map (fun w =>
    match t.vocab.lookup w with
    | some id => id
    | none => (t.vocab.lookup "[PAD]".toList).getD 0)

/-- `strings.Join(words, " ")`. -/
def joinSpace : List Str → Str
  | [] => []
  | [w] => w
  | w :: v :: rest => w ++ ' ' :: joinSpace (v :: rest)

/-- `Decode`: keep the word of every id present in the reverse vocabulary
and not special, join with single spaces. -/
def decode (t : Tokenizer) (ids : List ℕ) : Str :=
  joinSpace (ids.filterMap (fun id =>
    match t.reverseVocab.lookup id with
    | some w => if t.specialTokens.contains id then none else some w
    | none => none))

theorem toLowerStr_fixed {s : Str} (h : ∀ c ∈ s, toLowerChar c = c) :
    toLowerStr s = s := by
  induction s with
  | nil => rfl
  | cons c cs ih =>
    simp only [toLowerStr, List.map_cons]
    rw [h c (List.mem_cons_self _ _)]
    have := ih (fun d hd => h d (List.mem_cons_of_mem _ hd))
    simp only [toLowerStr] at this
    rw [this]

theorem toLowerChar_space : toLowerChar ' ' = ' ' := by decide

theorem takeWhile_append_word {p : Char → Bool} {w : Str}
    (hw : ∀ c ∈ w, p c = true) {x : Char} (hx : p x = false) (r : Str) :
    (w ++ x :: r).takeWhile p = w := by
  induction w with
  | nil => simp [List.takeWhile, hx]
  | cons c cs ih =>
    simp only [List.cons_append, List.takeWhile]
    rw [hw c (List.mem_cons_self _ _)]
    exact congrArg (List.cons c) (ih (fun d hd => hw d (List.mem_cons_of_mem _ hd)))

theorem dropWhile_append_word {p : Char → Bool} {w : Str}
    (hw : ∀ c ∈ w, p c = true) {x : Char} (hx : p x = false) (r : Str) :
    (w ++ x :: r).dropWhile p = x :: r := by
  induction w with
  | nil => simp [List.dropWhile, hx]
  | cons c cs ih =>
    simp only [List.cons_append, List.dropWhile]
    rw [hw c (List.mem_cons_self _ _)]
    exact ih (fun d hd => hw d (List.mem_cons_of_mem _ hd))

theorem takeWhile_all {p : Char → Bool} {w : Str}
    (hw : ∀ c ∈ w, p c = true) : w.takeWhile p = w := by
  induction w with
  | nil => rfl
  | cons c cs ih =>
    simp only [List.takeWhile]
    rw [hw c (List.mem_cons_self _ _)]
    exact congrArg (List.cons c) (ih (fun d hd => hw d (List.mem_cons_of_mem _ hd)))

theorem dropWhile_all {p : Char → Bool} {w : Str}
    (hw : ∀ c ∈ w, p c = true) : w.dropWhile p = [] := by
  induction w with
  | nil => rfl
  | cons c cs ih =>
    simp only [List.dropWhile]
    rw [hw c (List.mem_cons_self _ _)]
    exact ih (fun d hd => hw d (List.mem_cons_of_mem _ hd))

theorem fields_single_word {w : Str} (hne : w ≠ [])
    (hns : ∀ c ∈ w, isSpaceChar c = false) : fields w = [w] := by
  cases w with
  | nil => exact absurd rfl hne
  | cons c cs =>
    rw [fields]
    rw [if_neg (by rw [hns c (List.mem_cons_self _ _)]; simp)]
    have hp : ∀ d ∈ cs, (!isSpaceChar d) = true := by
      intro d hd
      rw [hns d (List.mem_cons_of_mem _ hd)]
      rfl
    have h0 : fields ([] : Str) = [] := by rw [fields]
    rw [takeWhile_all hp, dropWhile_all hp, h0]

theorem fields_cons_space (r : Str) : fields (' ' :: r) = fields r := by
  rw [fields, if_pos (by decide : isSpaceChar ' ' = true)]

theorem fields_first_word {w : Str} (hne : w ≠ [])
    (hns : ∀ c ∈ w, isSpaceChar c = false) (r : Str) :
    fields (w ++ ' ' :: r) = w :: fields r := by
  cases w with
  | nil => exact absurd rfl hne
  | cons c cs =>
    rw [List.cons_append, fields]
    rw [if_neg (by rw [hns c (List.mem_cons_self _ _)]; simp)]
    have hp : ∀ d ∈ cs, (!isSpaceChar d) = true := by
      intro d hd
      rw [hns d (List.mem_cons_of_mem _ hd)]
      rfl
    have hx : (!isSpaceChar ' ') = false := by decide
    rw [takeWhile_append_word hp hx, dropWhile_append_word hp hx,
      fields_cons_space]

theorem fields_joinSpace (ws : List Str)
    (h : ∀ w ∈ ws, w ≠ [] ∧ ∀ c ∈ w, isSpaceChar c = false) :
    fields (joinSpace ws) = ws := by
  induction ws with
  | nil =>
    rw [show joinSpace [] = ([] : Str) from rfl, fields]
  | cons w rest ih =>
    cases rest with
    | nil =>
      exact fields_single_word (h w (List.mem_cons_self _ _)).1
        (h w (List.mem_cons_self _ _)).2
    | cons v rs =>
      rw [show joinSpace (w :: v :: rs) = w ++ ' ' :: joinSpace (v :: rs)
          from rfl]
      rw [fields_first_word (h w (List.mem_cons_self _ _)).1
        (h w (List.mem_cons_self _ _)).2]
      rw [ih (fun w' hw' => h w' (List.mem_cons_of_mem _ hw'))]

theorem toLowerStr_joinSpace (ws : List Str)
    (h : ∀ w ∈ ws, ∀ c ∈ w, toLowerChar c = c) :
    toLowerStr (joinSpace ws) = joinSpace ws := by
  induction ws with
  | nil => rfl
  | cons w rest ih =>
    cases rest with
    | nil => exact toLowerStr_fixed (h w (List.mem_cons_self _ _))
    | cons v rs =>
      rw [show joinSpace (w :: v :: rs) = w ++ ' ' :: joinSpace (v :: rs)
          from rfl]
      show (w ++ ' ' :: joinSpace (v :: rs)).map toLowerChar = _
      rw [List.map_append, List.map_cons, toLowerChar_space]
      have h1 : w.map toLowerChar = w :=
        toLowerStr_fixed (h w (List.mem_cons_self _ _))
      have h2 : (joinSpace (v :: rs)).map toLowerChar = joinSpace (v :: rs) :=
        ih (fun w' hw' => h w' (List.mem_cons_of_mem _ hw'))
      rw [h1, h2]

theorem decode_encode_words (t : Tokenizer) (ws : List Str)
    (hw : ∀ w ∈ ws, ∃ id, t.vocab.lookup w = some id ∧
      t.reverseVocab.lookup id = some w ∧
      t.specialTokens.contains id = false) :
    (ws.map (fun w => match t.vocab.lookup w with
        | some id => id
        | none => (t.vocab.lookup "[PAD]".toList).getD 0)).filterMap
      (fun id => match t.reverseVocab.lookup id with
        | some w => if t.specialTokens.contains id then none else some w
        | none => none) = ws := by
  induction ws with
  | nil => rfl
  | cons w rest ih =>
    obtain ⟨id, hv, hr, hs⟩ := hw w (List.mem_cons_self _ _)
    rw [List.map_cons, hv]
    rw [List.filterMap_cons_some (by
      rw [hr, hs]
      rfl)]
    rw [ih (fun w' hw' => hw w' (List.mem_cons_of_mem _ hw'))]

/-- C9: the tokenizer round trip.  For a string made of non-empty,
already-lower-case, in-vocabulary, non-special words joined by single
spaces, `Decode(Encode(s)) = s`. -/
theorem C9_tokenizer_round_trip (t : Tokenizer) (ws : List Str)
    (hw : ∀ w ∈ ws, w ≠ [] ∧
      (∀ c ∈ w, isSpaceChar c = false ∧ toLowerChar c = c) ∧
      ∃ id, t.vocab.lookup w = some id ∧ t.reverseVocab.lookup id = some w ∧
        t.specialTokens.contains id = false) :
    decode t (encode t (joinSpace ws)) = joinSpace ws := by
  have hns : ∀ w ∈ ws, w ≠ [] ∧ ∀ c ∈ w, isSpaceChar c = false :=
    fun w hw' => ⟨(hw w hw').1, fun c hc => ((hw w hw').2.1 c hc).1⟩
  have hlc : ∀ w ∈ ws, ∀ c ∈ w, toLowerChar c = c :=
    fun w hw' c hc => ((hw w hw').2.1 c hc).2
  unfold encode decode
  rw [toLowerStr_joinSpace ws hlc, fields_joinSpace ws hns,
    decode_encode_words t ws (fun w hw' => (hw w hw').2.2)]

theorem C9_tokenizer_round_trip_witness :
    decode (newCustomTokenizer ["hi".toList])
        (encode (newCustomTokenizer ["hi".toList]) (joinSpace ["hi".toList]))
      = joinSpace ["hi".toList] := by
  have hfields : fields (toLowerStr "hi".toList) = ["hi".toList] := by
    have h1 : toLowerStr "hi".toList = "hi".toList := by decide
    rw [h1]
    exact fields_single_word (by decide) (by decide)
  have htok : newCustomTokenizer ["hi".toList] =
      { vocab := [("[PAD]".toList, 0), ("[MASK]".toList, 1),
          ("[CLS]".toList, 2), ("[SEP]".toList, 3), ("hi".toList, 4)],
        reverseVocab := [(0, "[PAD]".toList), (1, "[MASK]".toList),
          (2, "[CLS]".toList), (3, "[SEP]".toList), (4, "hi".toList)],
        specialTokens := [0, 1, 2, 3], vocabSize := 5 } := by
    unfold newCustomTokenizer
    dsimp only
    rw [List.foldl_cons, hfields, List.foldl_nil]
    rfl
  apply C9_tokenizer_round_trip
  intro w hww
  have hwe : w = "hi".toList := by
    rcases List.mem_cons.mp hww with he | hm
    · exact he
    · simp at hm
  rw [hwe, htok]
  exact ⟨by decide, by decide, 4, by decide, by decide, by decide⟩
